import Mathlib

/-!
# The maze generator and solver of `src/main.cpp`

A shallow embedding of classes `Cell` and `Maze` (constructor, `GenerateMaze`,
`FindSolution`, `CanMove`) and the proofs of their properties. Vectors are
lists with checked indices; loops carry an iteration budget.
-/

namespace StarWars

/-- Ways a run of the C++ code can stop without producing a value.
`lengthError` is the `std::length_error` thrown by `std::vector` when it is
asked for a negative size (an `int` converted to a huge unsigned size);
`outOfBounds` marks an unchecked index outside a vector or array, which is
undefined behaviour in C++ (the program reports nothing there);
`outOfFuel` belongs to the embedding only: a loop was cut by its iteration budget. -/
inductive Fault where
  | lengthError
  | outOfBounds
  | outOfFuel
deriving DecidableEq, Repr

/-- Equality of results is decidable, so that runs can be compared. -/
instance instDecidableEqExcept {ε α : Type} [DecidableEq ε] [DecidableEq α] :
    DecidableEq (Except ε α) := fun r1 r2 =>
  match r1, r2 with
  | .ok a, .ok b =>
    if h : a = b then isTrue (by rw [h]) else isFalse (fun hh => h (by cases hh; rfl))
  | .error a, .error b =>
    if h : a = b then isTrue (by rw [h]) else isFalse (fun hh => h (by cases hh; rfl))
  | .ok _, .error _ => isFalse (fun hh => by cases hh)
  | .error _, .ok _ => isFalse (fun hh => by cases hh)

/-- Class `Cell`: coordinates and `bool walls[4]`, one field per array slot
(0 = Up, 1 = Right, 2 = Down, 3 = Left). -/
structure Cell where
  x : Int
  y : Int
  walls0 : Bool
  walls1 : Bool
  walls2 : Bool
  walls3 : Bool
deriving DecidableEq, Repr

/-- Constructor `Cell(int x, int y)`: every wall present. -/
def Cell.new (x y : Int) : Cell := ⟨x, y, true, true, true, true⟩

/-- Method `Cell::RemoveWall`: `walls[direction] = false`, an index outside `0..3` is a fault. -/
def Cell.RemoveWall (c : Cell) (direction : Int) : Except Fault Cell :=
  if direction = 0 then .ok { c with walls0 := false }
  else if direction = 1 then .ok { c with walls1 := false }
  else if direction = 2 then .ok { c with walls2 := false }
  else if direction = 3 then .ok { c with walls3 := false }
  else .error .outOfBounds

/-- Method `Cell::HasWall`: `walls[direction]`, an index outside `0..3` is a fault. -/
def Cell.HasWall (c : Cell) (direction : Int) : Except Fault Bool :=
  if direction = 0 then .ok c.walls0
  else if direction = 1 then .ok c.walls1
  else if direction = 2 then .ok c.walls2
  else if direction = 3 then .ok c.walls3
  else .error .outOfBounds

/-- The constructor `std::vector<std::vector<T>>(rows, std::vector<T>(cols, a))`:
the inner vector is built first; a negative size is refused with `length_error`. -/
def newVec2 {α : Type} (rows cols : Int) (a : α) : Except Fault (List (List α)) :=
  if cols < 0 then .error .lengthError
  else if rows < 0 then .error .lengthError
  else .ok (List.replicate rows.toNat (List.replicate cols.toNat a))

/-- Read `v[y][x]` with the bounds made explicit. -/
def vget {α : Type} (v : List (List α)) (x y : Int) : Except Fault α :=
  if 0 ≤ y ∧ 0 ≤ x then
    match v[y.toNat]? with
    | none => .error .outOfBounds
    | some row =>
      match row[x.toNat]? with
      | none => .error .outOfBounds
      | some a => .ok a
  else .error .outOfBounds

/-- Write `v[y][x] = a` with the bounds made explicit. -/
def vset {α : Type} (v : List (List α)) (x y : Int) (a : α) : Except Fault (List (List α)) :=
  if 0 ≤ y ∧ 0 ≤ x then
    match v[y.toNat]? with
    | none => .error .outOfBounds
    | some row =>
      if x.toNat < row.length then .ok (v.set y.toNat (row.set x.toNat a))
      else .error .outOfBounds
  else .error .outOfBounds

/-- The x offset of a direction: `direction == 1 ? 1 : (direction == 3 ? -1 : 0)`. -/
def offX (direction : Int) : Int :=
  if direction = 1 then 1 else (if direction = 3 then -1 else 0)

/-- The y offset of a direction: `direction == 2 ? 1 : (direction == 0 ? -1 : 0)`. -/
def offY (direction : Int) : Int :=
  if direction = 2 then 1 else (if direction = 0 then -1 else 0)

/-- The spacing of the `float` values around a magnitude `a`, for magnitudes up
to 2^31 (the range of `int`): a `float` carries 24 significant bits. -/
def ulp32 (a : Nat) : Nat :=
  if a < 2 ^ 24 then 1 else if a < 2 ^ 25 then 2 else if a < 2 ^ 26 then 4
  else if a < 2 ^ 27 then 8 else if a < 2 ^ 28 then 16 else if a < 2 ^ 29 then 32
  else if a < 2 ^ 30 then 64 else 128

/-- The `float` nearest to a whole number `n` of the range of `int`, as a whole
number: the conversion `(float)n`, and the rounding of a `float` sum whose
exact value is `n`. Ties go to the even significand. -/
def f32 (n : Int) : Int :=
  let a := n.natAbs
  let u := ulp32 a
  let q := a / u
  let r := a % u
  let m := if 2 * r < u then q else if u < 2 * r then q + 1 else if q % 2 = 0 then q else q + 1
  Int.sign n * ((m * u : Nat) : Int)

/-- The statement `grid[y][x].RemoveWall(direction)`. -/
def removeWallAt (grid : List (List Cell)) (x y direction : Int) :
    Except Fault (List (List Cell)) :=
  match vget grid x y with
  | .error e => .error e
  | .ok c =>
    match c.RemoveWall direction with
    | .error e => .error e
    | .ok c1 => vset grid x y c1

/-- Local state of `Maze::GenerateMaze`: the grid being carved, the `visited`
matrix and the stack (top first). `pushed` is a history variable that records
every `stack.push` (latest first); nothing reads it. -/
structure GenState where
  grid : List (List Cell)
  visited : List (List Bool)
  stack : List (Int × Int)
  pushed : List (Int × Int)
deriving DecidableEq, Repr

/-- The `for (int direction : directions)` loop of `GenerateMaze` at the stack
top `(x, y)`: the first direction whose neighbour is inside the grid and not
visited is carved on both sides, the neighbour is marked and pushed, and the
scan stops (`moved = true; break`). The boolean is `moved`. -/
def GenerateMaze.scan (width height x y : Int) :
    List Int → GenState → Except Fault (Bool × GenState)
  | [], s => .ok (false, s)
  | direction :: rest, s =>
    let newX := x + offX direction
    let newY := y + offY direction
    if newX ≥ 0 ∧ newX < width ∧ newY ≥ 0 ∧ newY < height then
      match vget s.visited newX newY with
      | .error e => .error e
      | .ok true => GenerateMaze.scan width height x y rest s
      | .ok false =>
        match removeWallAt s.grid x y direction with
        | .error e => .error e
        | .ok g1 =>
          match removeWallAt g1 newX newY (Int.tmod (direction + 2) 4) with
          | .error e => .error e
          | .ok g2 =>
            match vset s.visited newX newY true with
            | .error e => .error e
            | .ok v1 =>
              .ok (true, ⟨g2, v1, (newX, newY) :: s.stack, (newX, newY) :: s.pushed⟩)
    else GenerateMaze.scan width height x y rest s

/-- The `while (!stack.empty())` loop of `GenerateMaze`. `shuffle i` is the
ordering of the directions that `std::random_shuffle` leaves at iteration `i`;
`fuel` bounds the number of iterations. -/
def GenerateMaze.loop (width height : Int) (shuffle : Nat → List Int) :
    Nat → Nat → GenState → Except Fault GenState
  | fuel, i, s =>
    match s.stack with
    | [] => .ok s
    | (x, y) :: below =>
      match fuel with
      | 0 => .error .outOfFuel
      | fuel + 1 =>
        match GenerateMaze.scan width height x y (shuffle i) s with
        | .error e => .error e
        | .ok (true, s1) => GenerateMaze.loop width height shuffle fuel (i + 1) s1
        | .ok (false, s1) =>
          GenerateMaze.loop width height shuffle fuel (i + 1) { s1 with stack := below }

/-- Method `Maze::GenerateMaze` on the members `grid`, `width`, `height`; the
result is the state in which the loop ends. -/
def Maze.GenerateMaze (fuel : Nat) (shuffle : Nat → List Int) (width height : Int)
    (grid : List (List Cell)) : Except Fault GenState :=
  match newVec2 height width false with
  | .error e => .error e
  | .ok visited0 =>
    match vset visited0 0 0 true with
    | .error e => .error e
    | .ok visited => GenerateMaze.loop width height shuffle fuel 0 ⟨grid, visited, [(0, 0)], [(0, 0)]⟩

/-- Local state of `Maze::FindSolution`: the queue (front first), `visited` and
`parent`. A `Vector2` holds two `float`s; every `float` that arises here is a
whole number, and it is represented by that number. Where the source converts
an `int` to `float` or adds in `float`, the embedding rounds with `f32`. -/
structure SolveState where
  queue : List (Int × Int)
  visited : List (List Bool)
  parent : List (List (Int × Int))
deriving DecidableEq, Repr

/-- The direction loop of `FindSolution` at the dequeued cell `(cx, cy)`,
scanning the directions of the list in order (the source scans `0,1,2,3`).
`int newX = current.x + (…)` adds in `float` and converts the sum back to
`int`; the push stores `(float)newX`. -/
def FindSolution.expand (grid : List (List Cell)) (cx cy : Int) :
    List Int → SolveState → Except Fault SolveState
  | [], s => .ok s
  | direction :: rest, s =>
    match vget grid cx cy with
    | .error e => .error e
    | .ok c =>
      match c.HasWall direction with
      | .error e => .error e
      | .ok true => FindSolution.expand grid cx cy rest s
      | .ok false =>
        let newX := f32 (cx + offX direction)
        let newY := f32 (cy + offY direction)
        match vget s.visited newX newY with
        | .error e => .error e
        | .ok true => FindSolution.expand grid cx cy rest s
        | .ok false =>
          match vset s.visited newX newY true with
          | .error e => .error e
          | .ok v1 =>
            match vset s.parent newX newY (cx, cy) with
            | .error e => .error e
            | .ok p1 =>
              FindSolution.expand grid cx cy rest
                ⟨s.queue ++ [(f32 newX, f32 newY)], v1, p1⟩

/-- The reconstruction loop `while (pos.x != -1 && pos.y != -1)`: `pos` is
appended to `solution` and replaced by its parent. The `float`s of `pos` are
whole numbers, so the comparisons with `-1` and the conversions to an index
are exact. -/
def FindSolution.reconstruct (parent : List (List (Int × Int))) :
    Nat → Int × Int → List (Int × Int) → Except Fault (List (Int × Int))
  | fuel, pos, solution =>
    if pos.1 ≠ -1 ∧ pos.2 ≠ -1 then
      match fuel with
      | 0 => .error .outOfFuel
      | fuel + 1 =>
        match vget parent pos.1 pos.2 with
        | .error e => .error e
        | .ok p => FindSolution.reconstruct parent fuel p (solution ++ [pos])
    else .ok solution

/-- The `while (!queue.empty())` loop of `FindSolution`; the result is the
content of `solution` when the function returns (it is empty on entry, and
stays empty when the queue runs dry). The test `current.x == width - 1`
compares in `float`: the `int` on the right is converted. `fuel` bounds the
iterations of this loop and `rfuel` those of the reconstruction loop. -/
def FindSolution.loop (grid : List (List Cell)) (width height : Int) (dirs : List Int)
    (rfuel : Nat) : Nat → SolveState → Except Fault (List (Int × Int))
  | fuel, s =>
    match s.queue with
    | [] => .ok []
    | (cx, cy) :: rest =>
      match fuel with
      | 0 => .error .outOfFuel
      | fuel + 1 =>
        if cx = f32 (width - 1) ∧ cy = f32 (height - 1) then
          match FindSolution.reconstruct s.parent rfuel (cx, cy) [] with
          | .error e => .error e
          | .ok solution => .ok solution.reverse
        else
          match FindSolution.expand grid cx cy dirs ⟨rest, s.visited, s.parent⟩ with
          | .error e => .error e
          | .ok s1 => FindSolution.loop grid width height dirs rfuel fuel s1

/-- Method `Maze::FindSolution` with the order of its direction loop as a parameter. -/
def Maze.FindSolutionWith (dirs : List Int) (fuel : Nat) (width height : Int)
    (grid : List (List Cell)) : Except Fault (List (Int × Int)) :=
  match newVec2 height width false with
  | .error e => .error e
  | .ok visited0 =>
    match newVec2 height width ((-1 : Int), (-1 : Int)) with
    | .error e => .error e
    | .ok parent =>
      match vset visited0 0 0 true with
      | .error e => .error e
      | .ok visited =>
        FindSolution.loop grid width height dirs fuel fuel ⟨[(0, 0)], visited, parent⟩

/-- Method `Maze::FindSolution`: the direction loop runs `0, 1, 2, 3`. -/
def Maze.FindSolution (fuel : Nat) (width height : Int) (grid : List (List Cell)) :
    Except Fault (List (Int × Int)) :=
  Maze.FindSolutionWith [0, 1, 2, 3] fuel width height grid

/-- The grid built by the constructor: `grid.resize(height, std::vector<Cell>(width))`
followed by `grid[y][x] = Cell(x, y)` for every cell. -/
def Maze.initGrid (width height : Int) : Except Fault (List (List Cell)) :=
  match newVec2 height width (Cell.new 0 0) with
  | .error e => .error e
  | .ok _ =>
    .ok ((List.range height.toNat).map fun y =>
      (List.range width.toNat).map fun x => Cell.new (Int.ofNat x) (Int.ofNat y))

/-- Method `Maze::CanMove`: `!grid[y][x].HasWall(direction)`. -/
def CanMove (grid : List (List Cell)) (x y direction : Int) : Except Fault Bool :=
  match vget grid x y with
  | .error e => .error e
  | .ok c =>
    match c.HasWall direction with
    | .error e => .error e
    | .ok w => .ok (!w)

/-- The members of class `Maze` that the maze logic uses. -/
structure Maze where
  grid : List (List Cell)
  width : Int
  height : Int
  cellSize : Int
  solution : List (Int × Int)
deriving DecidableEq, Repr

/-- The first part of the constructor: the all-walls grid is built and
`GenerateMaze()` is called on it. -/
def Maze.generate (fuel : Nat) (shuffle : Nat → List Int) (width height : Int) :
    Except Fault GenState :=
  match Maze.initGrid width height with
  | .error e => .error e
  | .ok grid0 => Maze.GenerateMaze fuel shuffle width height grid0

/-- Constructor `Maze(int width, int height, int cellSize)` up to the call of
`FindSolution` (the texture loads that follow are outside the model). -/
def Maze.new (fuel : Nat) (shuffle : Nat → List Int) (width height cellSize : Int) :
    Except Fault Maze :=
  match Maze.generate fuel shuffle width height with
  | .error e => .error e
  | .ok s =>
    match Maze.FindSolution fuel width height s.grid with
    | .error e => .error e
    | .ok solution => .ok ⟨s.grid, width, height, cellSize, solution⟩

/-! ## Vocabulary of the properties -/

/-- The cell `p = (x, y)` lies inside a `width × height` grid. -/
def inGrid (width height : Int) (p : Int × Int) : Prop :=
  0 ≤ p.1 ∧ p.1 < width ∧ 0 ≤ p.2 ∧ p.2 < height

instance instDecidableInGrid (width height : Int) (p : Int × Int) :
    Decidable (inGrid width height p) := by
  unfold inGrid; infer_instance

/-- The neighbour of a cell in a direction. -/
def nbr (p : Int × Int) (direction : Int) : Int × Int :=
  (p.1 + offX direction, p.2 + offY direction)

/-- The cell that `FindSolution` computes as the neighbour of `p` in a direction:
both coordinates go through `float`. -/
def fnbr (p : Int × Int) (direction : Int) : Int × Int :=
  (f32 (p.1 + offX direction), f32 (p.2 + offY direction))

/-- The cell at which the exit test of `FindSolution` fires: the exit with both
coordinates converted to `float`. -/
def fexit (width height : Int) : Int × Int :=
  (f32 (width - 1), f32 (height - 1))

/-- The opposite direction, as the source computes it: `(direction + 2) % 4`. -/
def opp (direction : Int) : Int := Int.tmod (direction + 2) 4

/-- The four directions, in the order of the source. -/
def allDirs : List Int := [0, 1, 2, 3]

/-- From `a` one can move to `b`: `b` is the neighbour of `a` in a direction in
which `CanMove` answers true at `a`. -/
def Step (grid : List (List Cell)) (a b : Int × Int) : Prop :=
  ∃ d ∈ allDirs, CanMove grid a.1 a.2 d = .ok true ∧ b = nbr a d

instance instDecidableStep (grid : List (List Cell)) (a b : Int × Int) :
    Decidable (Step grid a b) := by
  unfold Step; infer_instance

/-- From `a` the search of `FindSolution` moves to `b`: `CanMove` answers true at
`a` in a direction and `b` is the neighbour that the search computes. -/
def FStep (grid : List (List Cell)) (a b : Int × Int) : Prop :=
  ∃ d ∈ allDirs, CanMove grid a.1 a.2 d = .ok true ∧ b = fnbr a d

instance instDecidableFStep (grid : List (List Cell)) (a b : Int × Int) :
    Decidable (FStep grid a b) := by
  unfold FStep; infer_instance

/-- A passage joins `a` and `b`: they are neighbours and the wall between them
is removed on both sides. -/
def Passage (grid : List (List Cell)) (a b : Int × Int) : Prop :=
  ∃ d ∈ allDirs, b = nbr a d ∧ CanMove grid a.1 a.2 d = .ok true ∧
    CanMove grid b.1 b.2 (opp d) = .ok true

instance instDecidablePassage (grid : List (List Cell)) (a b : Int × Int) :
    Decidable (Passage grid a b) := by
  unfold Passage; infer_instance

/-- The passages of a grid, each unordered pair of neighbours listed once: by
its left cell with direction 1 (Right) or its upper cell with direction 2 (Down). -/
def passageSet (grid : List (List Cell)) (width height : Int) : Finset ((Int × Int) × Int) :=
  ((Finset.Ico 0 width ×ˢ Finset.Ico 0 height) ×ˢ ({1, 2} : Finset Int)).filter
    fun e => Passage grid e.1 (nbr e.1 e.2)

/-- The number of passages of a grid. -/
def passageCount (grid : List (List Cell)) (width height : Int) : Nat :=
  (passageSet grid width height).card

/-- The cells marked in a `visited` matrix. -/
def visitedSet (visited : List (List Bool)) (width height : Int) : Finset (Int × Int) :=
  (Finset.Ico 0 width ×ˢ Finset.Ico 0 height).filter
    fun p => vget visited p.1 p.2 = .ok true

/-- The cell `c` can be reached from `(0, 0)` by moving through passages. -/
def Reachable (grid : List (List Cell)) (c : Int × Int) : Prop :=
  Relation.ReflTransGen (Passage grid) (0, 0) c

/-- A walk from `a` to `b`: a list of cells that starts at `a`, ends at `b` and
whose consecutive cells are related by `r`. -/
def IsWalk (r : Int × Int → Int × Int → Prop) (a b : Int × Int) (w : List (Int × Int)) : Prop :=
  w.head? = some a ∧ w.getLast? = some b ∧ List.Chain' r w

/-- A two-dimensional vector has exactly the cells of a `width × height` grid. -/
def HasDom {α : Type} (width height : Int) (v : List (List α)) : Prop :=
  ∀ x y, inGrid width height (x, y) ↔ ∃ a, vget v x y = .ok a

/-- The effect of one successful move of `GenerateMaze` from the stack top `a`
in direction `d`: both wall flags are cleared, the neighbour is marked and pushed. -/
def Carved (s s1 : GenState) (a : Int × Int) (d : Int) : Prop :=
  ∃ g1, removeWallAt s.grid a.1 a.2 d = .ok g1 ∧
    removeWallAt g1 (nbr a d).1 (nbr a d).2 (opp d) = .ok s1.grid ∧
    vset s.visited (nbr a d).1 (nbr a d).2 true = .ok s1.visited ∧
    s1.stack = nbr a d :: s.stack ∧ s1.pushed = nbr a d :: s.pushed

/-- The invariant of the carving loop of `GenerateMaze` on a `width × height` grid. -/
structure GenInv (width height : Int) (s : GenState) : Prop where
  gridDom : HasDom width height s.grid
  visDom : HasDom width height s.visited
  entry : vget s.visited 0 0 = .ok true
  stackV : ∀ p ∈ s.stack, vget s.visited p.1 p.2 = .ok true
  intact : ∀ p : Int × Int, vget s.visited p.1 p.2 = .ok false →
    ∀ d ∈ allDirs, CanMove s.grid p.1 p.2 d = .ok false
  outer : ∀ (p : Int × Int) (d : Int), inGrid width height p → d ∈ allDirs →
    ¬ inGrid width height (nbr p d) → CanMove s.grid p.1 p.2 d = .ok false
  symm : ∀ (p : Int × Int) (d : Int), inGrid width height p → d ∈ allDirs →
    inGrid width height (nbr p d) →
    CanMove s.grid p.1 p.2 d = CanMove s.grid (nbr p d).1 (nbr p d).2 (opp d)
  conn : ∀ p : Int × Int, vget s.visited p.1 p.2 = .ok true → Reachable s.grid p
  closed : ∀ p : Int × Int, vget s.visited p.1 p.2 = .ok true → p ∉ s.stack →
    ∀ d ∈ allDirs, inGrid width height (nbr p d) →
      vget s.visited (nbr p d).1 (nbr p d).2 = .ok true
  count : passageCount s.grid width height + 1 = (visitedSet s.visited width height).card
  logNodup : s.pushed.Nodup
  logMem : ∀ p : Int × Int, p ∈ s.pushed ↔ vget s.visited p.1 p.2 = .ok true
  rank : ∃ (t : Int × Int → Nat) (k : Nat),
    (∀ p : Int × Int, vget s.visited p.1 p.2 = .ok true → t p < k) ∧
    (∀ a b, Passage s.grid a b → t a ≠ t b) ∧
    (∀ a b c, Passage s.grid a b → Passage s.grid a c → t b < t a → t c < t a → b = c)

/-- A grid with the cells of a `width × height` rectangle whose outer walls are
all present: no cell can be left toward a neighbour outside the rectangle. -/
structure WalledGrid (width height : Int) (grid : List (List Cell)) : Prop where
  dom : HasDom width height grid
  outer : ∀ (p : Int × Int) (d : Int), inGrid width height p → d ∈ allDirs →
    ¬ inGrid width height (nbr p d) → CanMove grid p.1 p.2 d = .ok false

/-- The invariant of the search loop of `FindSolution`. `ex` lists the cell
whose directions are being scanned (it has left the queue and its neighbours
are not all marked yet). -/
structure SolveInv (width height : Int) (grid : List (List Cell)) (ex : List (Int × Int))
    (s : SolveState) : Prop where
  visDom : HasDom width height s.visited
  parDom : HasDom width height s.parent
  entry : vget s.visited 0 0 = .ok true
  entryPar : vget s.parent 0 0 = .ok (-1, -1)
  queueV : ∀ p ∈ s.queue, vget s.visited p.1 p.2 = .ok true
  small : ∀ p : Int × Int, vget s.visited p.1 p.2 = .ok true → p.1 ≤ 2 ^ 24 ∧ p.2 ≤ 2 ^ 24
  sound : ∀ p : Int × Int, vget s.visited p.1 p.2 = .ok true →
    Relation.ReflTransGen (Step grid) (0, 0) p
  fsound : ∀ p : Int × Int, vget s.visited p.1 p.2 = .ok true →
    Relation.ReflTransGen (FStep grid) (0, 0) p
  closed : ∀ p : Int × Int, vget s.visited p.1 p.2 = .ok true → p ∉ s.queue → p ∉ ex →
    p ≠ fexit width height ∧
    ∀ d ∈ allDirs, CanMove grid p.1 p.2 d = .ok true →
      vget s.visited (fnbr p d).1 (fnbr p d).2 = .ok true
  rank : ∃ r : Int × Int → Nat,
    (∀ p : Int × Int, vget s.visited p.1 p.2 = .ok true →
      r p < (visitedSet s.visited width height).card) ∧
    (∀ p : Int × Int, vget s.visited p.1 p.2 = .ok true → p ≠ (0, 0) →
      ∃ q : Int × Int, vget s.parent p.1 p.2 = .ok q ∧ vget s.visited q.1 q.2 = .ok true ∧
        Step grid q p ∧ r q < r p)

/-! ## Two-dimensional vectors -/

theorem vget_error_eq {α : Type} (v : List (List α)) (x y : Int) (e : Fault)
    (h : vget v x y = .error e) : e = .outOfBounds := by
  unfold vget at h
  split_ifs at h
  · split at h
    · cases h; rfl
    · split at h
      · cases h; rfl
      · cases h
  · cases h; rfl

theorem vset_of_vget {α : Type} (v : List (List α)) (x y : Int) (a a0 : α)
    (h : vget v x y = .ok a0) : ∃ v1, vset v x y a = .ok v1 := by
  unfold vget at h
  unfold vset
  split_ifs at h with hxy
  rw [if_pos hxy]
  cases hrow : v[y.toNat]? with
  | none => rw [hrow] at h; cases h
  | some row =>
    rw [hrow] at h
    simp only at h ⊢
    cases hcell : row[x.toNat]? with
    | none => rw [hcell] at h; cases h
    | some c =>
      have hlt : x.toNat < row.length := by
        rcases List.getElem?_eq_some.mp hcell with ⟨hl, _⟩
        exact hl
      rw [if_pos hlt]
      exact ⟨_, rfl⟩

theorem vget_of_vset {α : Type} (v v1 : List (List α)) (x y : Int) (a : α)
    (h : vset v x y a = .ok v1) : ∃ a0, vget v x y = .ok a0 := by
  unfold vset at h
  unfold vget
  split_ifs at h with hxy
  rw [if_pos hxy]
  cases hrow : v[y.toNat]? with
  | none => rw [hrow] at h; cases h
  | some row =>
    rw [hrow] at h
    simp only at h ⊢
    split_ifs at h with hlt
    rw [List.getElem?_eq_getElem hlt]
    exact ⟨_, rfl⟩

theorem vget_vset {α : Type} (v v1 : List (List α)) (x y : Int) (a : α)
    (h : vset v x y a = .ok v1) (x1 y1 : Int) :
    vget v1 x1 y1 = if x1 = x ∧ y1 = y then .ok a else vget v x1 y1 := by
  unfold vset at h
  split_ifs at h with hxy
  cases hrow : v[y.toNat]? with
  | none => rw [hrow] at h; cases h
  | some row =>
    rw [hrow] at h
    simp only at h
    split_ifs at h with hlt
    cases h
    have hylt : y.toNat < v.length := by
      rcases List.getElem?_eq_some.mp hrow with ⟨hl, _⟩
      exact hl
    unfold vget
    by_cases h1 : 0 ≤ y1 ∧ 0 ≤ x1
    · rw [if_pos h1, if_pos h1]
      by_cases hy : y1 = y
      · subst hy
        rw [List.getElem?_set, if_pos rfl, if_pos hylt, hrow]
        simp only
        by_cases hx : x1 = x
        · subst hx
          rw [List.getElem?_set, if_pos rfl, if_pos hlt]
          simp
        · have hne : x.toNat ≠ x1.toNat := by
            intro hh
            apply hx
            have := Int.toNat_of_nonneg hxy.2
            have := Int.toNat_of_nonneg h1.2
            omega
          rw [List.getElem?_set_ne hne, if_neg (fun hh => hx hh.1)]
      · have hne : y.toNat ≠ y1.toNat := by
          intro hh
          apply hy
          have := Int.toNat_of_nonneg hxy.1
          have := Int.toNat_of_nonneg h1.1
          omega
        rw [List.getElem?_set_ne hne, if_neg (fun hh => hy hh.2)]
    · rw [if_neg h1, if_neg h1, if_neg]
      rintro ⟨rfl, rfl⟩
      exact h1 hxy

theorem vget_newVec2 {α : Type} (rows cols : Int) (a : α) (v : List (List α))
    (h : newVec2 rows cols a = .ok v) (x y : Int) :
    vget v x y = if inGrid cols rows (x, y) then .ok a else .error .outOfBounds := by
  unfold newVec2 at h
  split_ifs at h with hc hr
  cases h
  unfold vget inGrid
  simp only
  by_cases h1 : 0 ≤ y ∧ 0 ≤ x
  · rw [if_pos h1]
    have hx := Int.toNat_of_nonneg h1.2
    have hy := Int.toNat_of_nonneg h1.1
    have hC := Int.toNat_of_nonneg (not_lt.mp hc)
    have hR := Int.toNat_of_nonneg (not_lt.mp hr)
    rw [List.getElem?_replicate]
    by_cases hyr : y < rows
    · rw [if_pos (by omega)]
      simp only
      rw [List.getElem?_replicate]
      by_cases hxc : x < cols
      · rw [if_pos (by omega), if_pos ⟨h1.2, hxc, h1.1, hyr⟩]
      · rw [if_neg (by omega), if_neg (fun hh => hxc hh.2.1)]
    · rw [if_neg (by omega), if_neg (fun hh => hyr hh.2.2.2)]
  · rw [if_neg h1, if_neg (fun hh => h1 ⟨hh.2.2.1, hh.1⟩)]

theorem newVec2_ok {α : Type} (rows cols : Int) (a : α) (hr : 0 ≤ rows) (hc : 0 ≤ cols) :
    ∃ v, newVec2 rows cols a = .ok v := by
  unfold newVec2
  rw [if_neg (not_lt.mpr hc), if_neg (not_lt.mpr hr)]
  exact ⟨_, rfl⟩

theorem initGrid_ok (width height : Int) (hw : 0 ≤ width) (hh : 0 ≤ height) :
    ∃ g, Maze.initGrid width height = .ok g := by
  unfold Maze.initGrid newVec2
  rw [if_neg (not_lt.mpr hw), if_neg (not_lt.mpr hh)]
  exact ⟨_, rfl⟩

theorem vget_initGrid (width height : Int) (g : List (List Cell))
    (h : Maze.initGrid width height = .ok g) (x y : Int) :
    vget g x y = if inGrid width height (x, y) then .ok (Cell.new x y)
      else .error .outOfBounds := by
  unfold Maze.initGrid newVec2 at h
  split_ifs at h with hc hr
  cases h
  unfold vget inGrid
  simp only
  by_cases h1 : 0 ≤ y ∧ 0 ≤ x
  · rw [if_pos h1]
    have hx := Int.toNat_of_nonneg h1.2
    have hy := Int.toNat_of_nonneg h1.1
    have hC := Int.toNat_of_nonneg (not_lt.mp hc)
    have hR := Int.toNat_of_nonneg (not_lt.mp hr)
    rw [List.getElem?_map]
    by_cases hyr : y < height
    · rw [List.getElem?_range (by omega)]
      simp only [Option.map_some']
      rw [List.getElem?_map]
      by_cases hxc : x < width
      · rw [List.getElem?_range (by omega)]
        simp only [Option.map_some']
        rw [if_pos ⟨h1.2, hxc, h1.1, hyr⟩]
        simp only [Int.ofNat_eq_coe, hx, hy]
      · have : (List.range width.toNat)[x.toNat]? = none := by
          rw [List.getElem?_eq_none_iff, List.length_range]; omega
        rw [this]
        simp only [Option.map_none']
        rw [if_neg (fun hh => hxc hh.2.1)]
    · have : (List.range height.toNat)[y.toNat]? = none := by
        rw [List.getElem?_eq_none_iff, List.length_range]; omega
      rw [this]
      simp only [Option.map_none']
      rw [if_neg (fun hh => hyr hh.2.2.2)]
  · rw [if_neg h1, if_neg (fun hh => h1 ⟨hh.2.2.1, hh.1⟩)]

/-! ## Walls and moves -/

theorem mem_allDirs (d : Int) : d ∈ allDirs ↔ d = 0 ∨ d = 1 ∨ d = 2 ∨ d = 3 := by
  simp [allDirs]

theorem opp_mem_allDirs (d : Int) (hd : d ∈ allDirs) : opp d ∈ allDirs := by
  rw [mem_allDirs] at hd
  rcases hd with rfl | rfl | rfl | rfl <;> decide

theorem opp_opp (d : Int) (hd : d ∈ allDirs) : opp (opp d) = d := by
  rw [mem_allDirs] at hd
  rcases hd with rfl | rfl | rfl | rfl <;> decide

theorem nbr_opp (p : Int × Int) (d : Int) (hd : d ∈ allDirs) : nbr (nbr p d) (opp d) = p := by
  rw [mem_allDirs] at hd
  rcases hd with rfl | rfl | rfl | rfl <;>
    simp [nbr, offX, offY, opp, Int.tmod, Int.tdiv]

theorem nbr_ne (p : Int × Int) (d : Int) (hd : d ∈ allDirs) : nbr p d ≠ p := by
  rw [mem_allDirs] at hd
  intro h
  have h1 := congrArg Prod.fst h
  have h2 := congrArg Prod.snd h
  rcases hd with rfl | rfl | rfl | rfl <;> simp [nbr, offX, offY] at h1 h2

theorem nbr_inj (p : Int × Int) (d1 d2 : Int) (h1 : d1 ∈ allDirs) (h2 : d2 ∈ allDirs)
    (h : nbr p d1 = nbr p d2) : d1 = d2 := by
  rw [mem_allDirs] at h1 h2
  have e1 := congrArg Prod.fst h
  have e2 := congrArg Prod.snd h
  rcases h1 with rfl | rfl | rfl | rfl <;> rcases h2 with rfl | rfl | rfl | rfl <;>
    first | rfl | (simp [nbr, offX, offY] at e1 e2)

theorem hasDom_of_vset {α : Type} (width height : Int) (v v1 : List (List α)) (x y : Int) (a : α)
    (hv : HasDom width height v) (h : vset v x y a = .ok v1) : HasDom width height v1 := by
  intro x1 y1
  rw [hv x1 y1, vget_vset v v1 x y a h]
  by_cases hxy : x1 = x ∧ y1 = y
  · rw [if_pos hxy]
    obtain ⟨rfl, rfl⟩ := hxy
    constructor
    · intro _; exact ⟨a, rfl⟩
    · intro _; exact vget_of_vset v v1 _ _ a h
  · rw [if_neg hxy]

theorem canMove_ok {grid : List (List Cell)} {x y d : Int} {b : Bool}
    (h : CanMove grid x y d = .ok b) : (∃ c, vget grid x y = .ok c) ∧ d ∈ allDirs := by
  unfold CanMove at h
  cases hc : vget grid x y with
  | error e => rw [hc] at h; cases h
  | ok c =>
    refine ⟨⟨c, rfl⟩, ?_⟩
    rw [hc] at h
    simp only at h
    rw [mem_allDirs]
    by_contra hd
    push_neg at hd
    simp [Cell.HasWall, hd.1, hd.2.1, hd.2.2.1, hd.2.2.2] at h

theorem removeWallAt_ok {grid : List (List Cell)} {x y d : Int} {c : Cell}
    (hc : vget grid x y = .ok c) (hd : d ∈ allDirs) :
    ∃ g1, removeWallAt grid x y d = .ok g1 := by
  unfold removeWallAt
  rw [hc]
  rw [mem_allDirs] at hd
  rcases hd with rfl | rfl | rfl | rfl <;> simp only [Cell.RemoveWall] <;>
    exact vset_of_vget grid x y _ c hc

theorem hasDom_removeWallAt {width height : Int} {grid g1 : List (List Cell)} {x y d : Int}
    (hg : HasDom width height grid) (h : removeWallAt grid x y d = .ok g1) :
    HasDom width height g1 := by
  unfold removeWallAt at h
  cases hc : vget grid x y with
  | error e => rw [hc] at h; cases h
  | ok c =>
    rw [hc] at h
    simp only at h
    cases hr : c.RemoveWall d with
    | error e => rw [hr] at h; cases h
    | ok c1 =>
      rw [hr] at h
      exact hasDom_of_vset width height grid g1 x y c1 hg h

theorem canMove_removeWallAt {grid g1 : List (List Cell)} {x y d : Int}
    (h : removeWallAt grid x y d = .ok g1) (x1 y1 d1 : Int) :
    CanMove g1 x1 y1 d1 =
      if x1 = x ∧ y1 = y ∧ d1 = d then .ok true else CanMove grid x1 y1 d1 := by
  unfold removeWallAt at h
  cases hc : vget grid x y with
  | error e => rw [hc] at h; cases h
  | ok c =>
    rw [hc] at h
    simp only at h
    cases hr : c.RemoveWall d with
    | error e => rw [hr] at h; cases h
    | ok c1 =>
      rw [hr] at h
      simp only at h
      unfold CanMove
      rw [vget_vset grid g1 x y c1 h]
      by_cases hxy : x1 = x ∧ y1 = y
      · rw [if_pos hxy]
        obtain ⟨rfl, rfl⟩ := hxy
        rw [hc]
        simp only [true_and]
        unfold Cell.RemoveWall at hr
        unfold Cell.HasWall
        split_ifs at hr with h0 h1 h2 h3 <;> cases hr <;> subst_vars <;>
          by_cases e0 : d1 = 0 <;> by_cases e1 : d1 = 1 <;> by_cases e2 : d1 = 2 <;>
          by_cases e3 : d1 = 3 <;> simp_all
      · rw [if_neg hxy, if_neg (fun hh => hxy ⟨hh.1, hh.2.1⟩)]

/-! ## The direction scan of `GenerateMaze` -/

theorem scan_spec (width height : Int) (s : GenState) (x y : Int)
    (hg : HasDom width height s.grid) (hv : HasDom width height s.visited)
    (hin : inGrid width height (x, y)) :
    ∀ ds : List Int, (∀ d ∈ ds, d ∈ allDirs) →
      (GenerateMaze.scan width height x y ds s = .ok (false, s) ∧
        ∀ d ∈ ds, inGrid width height (nbr (x, y) d) →
          vget s.visited (nbr (x, y) d).1 (nbr (x, y) d).2 = .ok true) ∨
      (∃ s1 d, GenerateMaze.scan width height x y ds s = .ok (true, s1) ∧ d ∈ ds ∧
        inGrid width height (nbr (x, y) d) ∧
        vget s.visited (nbr (x, y) d).1 (nbr (x, y) d).2 = .ok false ∧
        Carved s s1 (x, y) d) := by
  intro ds
  induction ds with
  | nil =>
    intro _
    left
    exact ⟨rfl, fun d hd => by cases hd⟩
  | cons d rest ih =>
    intro hds
    have hd : d ∈ allDirs := hds d (List.mem_cons_self _ _)
    have hrest : ∀ d1 ∈ rest, d1 ∈ allDirs := fun d1 h1 => hds d1 (List.mem_cons_of_mem _ h1)
    unfold GenerateMaze.scan
    simp only
    by_cases hb : x + offX d ≥ 0 ∧ x + offX d < width ∧ y + offY d ≥ 0 ∧ y + offY d < height
    · rw [if_pos hb]
      have hbin : inGrid width height (nbr (x, y) d) := ⟨hb.1, hb.2.1, hb.2.2.1, hb.2.2.2⟩
      obtain ⟨vb, hvb⟩ := (hv _ _).mp hbin
      have hvb1 : vget s.visited (x + offX d) (y + offY d) = .ok vb := hvb
      rw [hvb1]
      cases vb with
      | true =>
        simp only
        rcases ih hrest with ⟨h1, h2⟩ | ⟨s1, d1, h1, h2, h3⟩
        · left
          refine ⟨h1, ?_⟩
          intro d1 hd1 hin1
          rcases List.mem_cons.mp hd1 with rfl | hd1
          · exact hvb
          · exact h2 d1 hd1 hin1
        · right
          exact ⟨s1, d1, h1, List.mem_cons_of_mem _ h2, h3⟩
      | false =>
        simp only
        right
        obtain ⟨ca, hca⟩ := (hg _ _).mp hin
        obtain ⟨g1, hg1⟩ := removeWallAt_ok hca hd
        have hg1dom := hasDom_removeWallAt hg hg1
        obtain ⟨cb, hcb⟩ := (hg1dom _ _).mp hbin
        obtain ⟨g2, hg2⟩ := removeWallAt_ok hcb (opp_mem_allDirs d hd)
        obtain ⟨v1, hv1⟩ := vset_of_vget s.visited _ _ true false hvb
        have hg2a : removeWallAt g1 (x + offX d) (y + offY d) (Int.tmod (d + 2) 4) = .ok g2 := hg2
        have hv1a : vset s.visited (x + offX d) (y + offY d) true = .ok v1 := hv1
        rw [hg1]
        simp only
        rw [hg2a]
        simp only
        rw [hv1a]
        exact ⟨_, d, rfl, List.mem_cons_self _ _, hbin, hvb, g1, hg1, hg2, hv1, rfl, rfl⟩
    · rw [if_neg hb]
      have hbout : ¬ inGrid width height (nbr (x, y) d) := fun h => hb ⟨h.1, h.2.1, h.2.2.1, h.2.2.2⟩
      rcases ih hrest with ⟨h1, h2⟩ | ⟨s1, d1, h1, h2, h3⟩
      · left
        refine ⟨h1, ?_⟩
        intro d1 hd1 hin1
        rcases List.mem_cons.mp hd1 with rfl | hd1
        · exact absurd hin1 hbout
        · exact h2 d1 hd1 hin1
      · right
        exact ⟨s1, d1, h1, List.mem_cons_of_mem _ h2, h3⟩

/-! ## One carving step -/

theorem carved_canMove {s s1 : GenState} {a : Int × Int} {d : Int} (hc : Carved s s1 a d)
    (p : Int × Int) (d1 : Int) :
    CanMove s1.grid p.1 p.2 d1 =
      if p = nbr a d ∧ d1 = opp d then .ok true
      else if p = a ∧ d1 = d then .ok true else CanMove s.grid p.1 p.2 d1 := by
  obtain ⟨g1, h1, h2, _, _, _⟩ := hc
  rw [canMove_removeWallAt h2, canMove_removeWallAt h1]
  have e1 : (p.1 = (nbr a d).1 ∧ p.2 = (nbr a d).2 ∧ d1 = opp d) ↔ (p = nbr a d ∧ d1 = opp d) := by
    rw [Prod.ext_iff]; tauto
  have e2 : (p.1 = a.1 ∧ p.2 = a.2 ∧ d1 = d) ↔ (p = a ∧ d1 = d) := by
    rw [Prod.ext_iff]; tauto
  simp only [e1, e2]

theorem carved_visited {s s1 : GenState} {a : Int × Int} {d : Int} (hc : Carved s s1 a d)
    (p : Int × Int) :
    vget s1.visited p.1 p.2 = if p = nbr a d then .ok true else vget s.visited p.1 p.2 := by
  obtain ⟨g1, _, _, h3, _, _⟩ := hc
  rw [vget_vset _ _ _ _ _ h3]
  have e1 : (p.1 = (nbr a d).1 ∧ p.2 = (nbr a d).2) ↔ p = nbr a d := by
    rw [Prod.ext_iff]
  simp only [e1]

theorem carved_canMove_mono {s s1 : GenState} {a : Int × Int} {d : Int} (hc : Carved s s1 a d)
    (p : Int × Int) (d1 : Int) (h : CanMove s.grid p.1 p.2 d1 = .ok true) :
    CanMove s1.grid p.1 p.2 d1 = .ok true := by
  rw [carved_canMove hc]
  split_ifs <;> first | rfl | exact h

theorem carved_passage_mono {s s1 : GenState} {a : Int × Int} {d : Int} (hc : Carved s s1 a d)
    (p q : Int × Int) (h : Passage s.grid p q) : Passage s1.grid p q := by
  obtain ⟨d1, hd1, hq, h1, h2⟩ := h
  exact ⟨d1, hd1, hq, carved_canMove_mono hc p d1 h1, carved_canMove_mono hc q (opp d1) h2⟩

theorem carved_passage_new {s s1 : GenState} {a : Int × Int} {d : Int} (hc : Carved s s1 a d)
    (hd : d ∈ allDirs) : Passage s1.grid a (nbr a d) ∧ Passage s1.grid (nbr a d) a := by
  have hba : CanMove s1.grid (nbr a d).1 (nbr a d).2 (opp d) = .ok true := by
    rw [carved_canMove hc, if_pos ⟨rfl, rfl⟩]
  have hab : CanMove s1.grid a.1 a.2 d = .ok true := by
    rw [carved_canMove hc]
    split_ifs <;> first | rfl | (exfalso; simp_all)
  constructor
  · exact ⟨d, hd, rfl, hab, hba⟩
  · refine ⟨opp d, opp_mem_allDirs d hd, (nbr_opp a d hd).symm, hba, ?_⟩
    rw [opp_opp d hd]
    exact hab

theorem carved_passage_iff {s s1 : GenState} {a : Int × Int} {d : Int} (hc : Carved s s1 a d)
    (hd : d ∈ allDirs) (p q : Int × Int) :
    Passage s1.grid p q ↔
      Passage s.grid p q ∨ (p = a ∧ q = nbr a d) ∨ (p = nbr a d ∧ q = a) := by
  constructor
  · rintro ⟨d1, hd1, hq, h1, h2⟩
    by_cases e1 : p = a ∧ d1 = d
    · right; left
      obtain ⟨rfl, rfl⟩ := e1
      exact ⟨rfl, hq⟩
    by_cases e2 : p = nbr a d ∧ d1 = opp d
    · right; right
      obtain ⟨rfl, rfl⟩ := e2
      refine ⟨rfl, ?_⟩
      rw [hq, nbr_opp a d hd]
    left
    rw [carved_canMove hc, if_neg e2, if_neg e1] at h1
    have e3 : ¬ (q = nbr a d ∧ opp d1 = opp d) := by
      rintro ⟨hq1, ho⟩
      apply e1
      have hdd : d1 = d := by
        have := congrArg opp ho
        rwa [opp_opp d1 hd1, opp_opp d hd] at this
      subst hdd
      refine ⟨?_, rfl⟩
      have := nbr_opp p d1 hd1
      rw [← hq, hq1, nbr_opp a d1 hd1] at this
      exact this.symm
    have e4 : ¬ (q = a ∧ opp d1 = d) := by
      rintro ⟨hq1, ho⟩
      apply e2
      have hdd : d1 = opp d := by
        have := congrArg opp ho
        rwa [opp_opp d1 hd1] at this
      refine ⟨?_, hdd⟩
      have := nbr_opp p d1 hd1
      rw [← hq, hq1, ho] at this
      exact this.symm
    rw [carved_canMove hc, if_neg e3, if_neg e4] at h2
    exact ⟨d1, hd1, hq, h1, h2⟩
  · rintro (h | ⟨rfl, rfl⟩ | ⟨rfl, rfl⟩)
    · exact carved_passage_mono hc p q h
    · exact (carved_passage_new hc hd).1
    · exact (carved_passage_new hc hd).2

theorem passage_canMove {grid : List (List Cell)} {p q : Int × Int} (h : Passage grid p q) :
    (∃ d ∈ allDirs, CanMove grid p.1 p.2 d = .ok true) ∧
    (∃ d ∈ allDirs, CanMove grid q.1 q.2 d = .ok true) := by
  obtain ⟨d1, hd1, _, h1, h2⟩ := h
  exact ⟨⟨d1, hd1, h1⟩, ⟨opp d1, opp_mem_allDirs d1 hd1, h2⟩⟩

/-- A cell whose walls are all present has no passage. -/
theorem no_passage_of_intact {grid : List (List Cell)} {b : Int × Int}
    (hb : ∀ d ∈ allDirs, CanMove grid b.1 b.2 d = .ok false) (p : Int × Int) :
    ¬ Passage grid b p ∧ ¬ Passage grid p b := by
  constructor
  · intro h
    obtain ⟨⟨d1, hd1, h1⟩, _⟩ := passage_canMove h
    rw [hb d1 hd1] at h1
    cases h1
  · intro h
    obtain ⟨_, ⟨d1, hd1, h1⟩⟩ := passage_canMove h
    rw [hb d1 hd1] at h1
    cases h1

/-! ## The carving step keeps the invariant -/

theorem mem_passageSet (grid : List (List Cell)) (width height : Int) (e : (Int × Int) × Int) :
    e ∈ passageSet grid width height ↔
      inGrid width height e.1 ∧ (e.2 = 1 ∨ e.2 = 2) ∧ Passage grid e.1 (nbr e.1 e.2) := by
  unfold passageSet inGrid
  simp only [Finset.mem_filter, Finset.mem_product, Finset.mem_Ico, Finset.mem_insert,
    Finset.mem_singleton]
  tauto

theorem mem_visitedSet (visited : List (List Bool)) (width height : Int) (p : Int × Int) :
    p ∈ visitedSet visited width height ↔
      inGrid width height p ∧ vget visited p.1 p.2 = .ok true := by
  unfold visitedSet inGrid
  simp only [Finset.mem_filter, Finset.mem_product, Finset.mem_Ico]
  tauto

theorem inGrid_of_vget {α : Type} {width height : Int} {v : List (List α)}
    (hv : HasDom width height v) {p : Int × Int} {a : α} (h : vget v p.1 p.2 = .ok a) :
    inGrid width height p :=
  (hv p.1 p.2).mpr ⟨a, h⟩

theorem pair_flip_left (p a : Int × Int) (d d1 : Int) (hd : d ∈ allDirs) (hd1 : d1 ∈ allDirs)
    (h : nbr p d1 = nbr a d ∧ opp d1 = opp d) : p = a ∧ d1 = d := by
  obtain ⟨hq1, ho⟩ := h
  have hdd : d1 = d := by
    have := congrArg opp ho
    rwa [opp_opp d1 hd1, opp_opp d hd] at this
  subst hdd
  refine ⟨?_, rfl⟩
  have := nbr_opp p d1 hd1
  rw [hq1, nbr_opp a d1 hd1] at this
  exact this.symm

theorem pair_flip_right (p a : Int × Int) (d d1 : Int) (hd1 : d1 ∈ allDirs)
    (h : nbr p d1 = a ∧ opp d1 = d) : p = nbr a d ∧ d1 = opp d := by
  obtain ⟨hq1, ho⟩ := h
  have hdd : d1 = opp d := by
    have := congrArg opp ho
    rwa [opp_opp d1 hd1] at this
  refine ⟨?_, hdd⟩
  have := nbr_opp p d1 hd1
  rw [hq1, ho] at this
  exact this.symm

theorem carved_passageSet {width height : Int} {s s1 : GenState} {a : Int × Int} {d : Int}
    (hc : Carved s s1 a d) (hd : d ∈ allDirs) (ha : inGrid width height a)
    (hb : inGrid width height (nbr a d))
    (hint : ∀ d1 ∈ allDirs, CanMove s.grid (nbr a d).1 (nbr a d).2 d1 = .ok false) :
    ∃ e0, e0 ∉ passageSet s.grid width height ∧
      passageSet s1.grid width height = insert e0 (passageSet s.grid width height) := by
  have hnp := no_passage_of_intact hint
  have key : ∀ e : (Int × Int) × Int, (e.2 = 1 ∨ e.2 = 2) →
      (Passage s1.grid e.1 (nbr e.1 e.2) ↔
        Passage s.grid e.1 (nbr e.1 e.2) ∨ (e.1 = a ∧ e.2 = d) ∨ (e.1 = nbr a d ∧ e.2 = opp d)) := by
    intro e he
    have hed : e.2 ∈ allDirs := by
      rw [mem_allDirs]; rcases he with h | h <;> simp [h]
    rw [carved_passage_iff hc hd]
    constructor
    · rintro (h | ⟨h1, h2⟩ | ⟨h1, h2⟩)
      · exact Or.inl h
      · right; left
        refine ⟨h1, ?_⟩
        rw [h1] at h2
        exact nbr_inj a _ _ hed hd h2
      · right; right
        refine ⟨h1, ?_⟩
        rw [h1] at h2
        have h3 : nbr (nbr a d) e.2 = nbr (nbr a d) (opp d) := by
          rw [h2, nbr_opp a d hd]
        exact nbr_inj _ _ _ hed (opp_mem_allDirs d hd) h3
    · rintro (h | ⟨h1, h2⟩ | ⟨h1, h2⟩)
      · exact Or.inl h
      · right; left
        exact ⟨h1, by rw [h1, h2]⟩
      · right; right
        exact ⟨h1, by rw [h1, h2, nbr_opp a d hd]⟩
  by_cases hd12 : d = 1 ∨ d = 2
  · refine ⟨(a, d), ?_, ?_⟩
    · rw [mem_passageSet]
      intro h
      exact (hnp a).2 h.2.2
    · ext e
      rw [Finset.mem_insert, mem_passageSet, mem_passageSet]
      constructor
      · rintro ⟨h1, h2, h3⟩
        rcases (key e h2).mp h3 with h | ⟨h4, h5⟩ | ⟨h4, h5⟩
        · exact Or.inr ⟨h1, h2, h⟩
        · left; exact Prod.ext h4 h5
        · exfalso
          rw [h5] at h2
          rcases hd12 with rfl | rfl <;> revert h2 <;> decide
      · rintro (rfl | ⟨h1, h2, h3⟩)
        · exact ⟨ha, hd12, (key (a, d) hd12).mpr (Or.inr (Or.inl ⟨rfl, rfl⟩))⟩
        · exact ⟨h1, h2, (key e h2).mpr (Or.inl h3)⟩
  · have hod : opp d = 1 ∨ opp d = 2 := by
      rw [mem_allDirs] at hd
      rcases hd with rfl | rfl | rfl | rfl
      · right; decide
      · exact absurd (Or.inl rfl) hd12
      · exact absurd (Or.inr rfl) hd12
      · left; decide
    refine ⟨(nbr a d, opp d), ?_, ?_⟩
    · rw [mem_passageSet]
      intro h
      exact (hnp _).1 h.2.2
    · ext e
      rw [Finset.mem_insert, mem_passageSet, mem_passageSet]
      constructor
      · rintro ⟨h1, h2, h3⟩
        rcases (key e h2).mp h3 with h | ⟨h4, h5⟩ | ⟨h4, h5⟩
        · exact Or.inr ⟨h1, h2, h⟩
        · exfalso
          rw [h5] at h2
          exact hd12 h2
        · left; exact Prod.ext h4 h5
      · rintro (rfl | ⟨h1, h2, h3⟩)
        · exact ⟨hb, hod, (key (nbr a d, opp d) hod).mpr (Or.inr (Or.inr ⟨rfl, rfl⟩))⟩
        · exact ⟨h1, h2, (key e h2).mpr (Or.inl h3)⟩

theorem carved_visitedSet {width height : Int} {s s1 : GenState} {a : Int × Int} {d : Int}
    (hc : Carved s s1 a d) (hb : inGrid width height (nbr a d))
    (hbv : vget s.visited (nbr a d).1 (nbr a d).2 = .ok false) :
    nbr a d ∉ visitedSet s.visited width height ∧
      visitedSet s1.visited width height = insert (nbr a d) (visitedSet s.visited width height) := by
  constructor
  · rw [mem_visitedSet, hbv]
    rintro ⟨_, h⟩
    cases h
  · ext p
    rw [Finset.mem_insert, mem_visitedSet, mem_visitedSet, carved_visited hc]
    by_cases hp : p = nbr a d
    · rw [if_pos hp]
      subst hp
      simp [hb]
    · rw [if_neg hp]
      simp [hp]

theorem carved_rank {s s1 : GenState} {a : Int × Int} {d : Int}
    (hc : Carved s s1 a d) (hd : d ∈ allDirs)
    (hav : vget s.visited a.1 a.2 = .ok true)
    (hint : ∀ d1 ∈ allDirs, CanMove s.grid (nbr a d).1 (nbr a d).2 d1 = .ok false)
    (hr : ∃ (t : Int × Int → Nat) (k : Nat),
      (∀ p : Int × Int, vget s.visited p.1 p.2 = .ok true → t p < k) ∧
      (∀ a b, Passage s.grid a b → t a ≠ t b) ∧
      (∀ a b c, Passage s.grid a b → Passage s.grid a c → t b < t a → t c < t a → b = c)) :
    ∃ (t : Int × Int → Nat) (k : Nat),
      (∀ p : Int × Int, vget s1.visited p.1 p.2 = .ok true → t p < k) ∧
      (∀ a b, Passage s1.grid a b → t a ≠ t b) ∧
      (∀ a b c, Passage s1.grid a b → Passage s1.grid a c → t b < t a → t c < t a → b = c) := by
  obtain ⟨t, k, h1, h2, h3⟩ := hr
  have hnp := no_passage_of_intact hint
  have hab : a ≠ nbr a d := fun h => nbr_ne a d hd h.symm
  have hta : t a < k := h1 a hav
  have hold : ∀ x y, Passage s.grid x y → x ≠ nbr a d ∧ y ≠ nbr a d := by
    intro x y h
    constructor
    · rintro rfl; exact (hnp y).1 h
    · rintro rfl; exact (hnp x).2 h
  refine ⟨Function.update t (nbr a d) k, k + 1, ?_, ?_, ?_⟩
  · intro p hp
    rw [carved_visited hc] at hp
    by_cases hpb : p = nbr a d
    · subst hpb
      rw [Function.update_same]
      exact Nat.lt_succ_self k
    · rw [if_neg hpb] at hp
      rw [Function.update_noteq hpb]
      exact Nat.lt_succ_of_lt (h1 p hp)
  · intro x y hxy
    rcases (carved_passage_iff hc hd x y).mp hxy with h | ⟨rfl, rfl⟩ | ⟨rfl, rfl⟩
    · obtain ⟨hx, hy⟩ := hold x y h
      rw [Function.update_noteq hx, Function.update_noteq hy]
      exact h2 x y h
    · rw [Function.update_same, Function.update_noteq hab]
      exact Nat.ne_of_lt hta
    · rw [Function.update_same, Function.update_noteq hab]
      exact Nat.ne_of_gt hta
  · intro x y z hxy hxz hy hz
    rcases (carved_passage_iff hc hd x y).mp hxy with h | ⟨hxa, hyb⟩ | ⟨hxb, hya⟩
    · obtain ⟨hx, hy1⟩ := hold x y h
      rcases (carved_passage_iff hc hd x z).mp hxz with h5 | ⟨hxa, hzb⟩ | ⟨hxb, _⟩
      · obtain ⟨_, hz1⟩ := hold x z h5
        rw [Function.update_noteq hx, Function.update_noteq hy1] at hy
        rw [Function.update_noteq hx, Function.update_noteq hz1] at hz
        exact h3 x y z h h5 hy hz
      · rw [hxa, hzb, Function.update_same, Function.update_noteq hab] at hz
        omega
      · exact absurd hxb hx
    · rw [hxa, hyb, Function.update_same, Function.update_noteq hab] at hy
      omega
    · rcases (carved_passage_iff hc hd x z).mp hxz with h5 | ⟨h6, _⟩ | ⟨_, hza⟩
      · exact absurd hxb (hold _ _ h5).1
      · exact absurd (h6.symm.trans hxb) hab
      · exact hya.trans hza.symm

theorem genInv_carved {width height : Int} {s s1 : GenState} {a : Int × Int} {d : Int}
    (hI : GenInv width height s) (hc : Carved s s1 a d) (hd : d ∈ allDirs)
    (hav : vget s.visited a.1 a.2 = .ok true)
    (hb : inGrid width height (nbr a d))
    (hbv : vget s.visited (nbr a d).1 (nbr a d).2 = .ok false) :
    GenInv width height s1 := by
  have ha : inGrid width height a := inGrid_of_vget hI.visDom hav
  have hab : a ≠ nbr a d := fun h => nbr_ne a d hd h.symm
  have hint := hI.intact _ hbv
  have hvmono : ∀ p : Int × Int, vget s.visited p.1 p.2 = .ok true →
      vget s1.visited p.1 p.2 = .ok true := by
    intro p hp
    rw [carved_visited hc]
    split_ifs
    · rfl
    · exact hp
  obtain ⟨g1, hg1, hg2, hv1, hst, hpu⟩ := id hc
  refine
    { gridDom := hasDom_removeWallAt (hasDom_removeWallAt hI.gridDom hg1) hg2
      visDom := hasDom_of_vset _ _ _ _ _ _ _ hI.visDom hv1
      entry := hvmono (0, 0) hI.entry
      stackV := ?_
      intact := ?_
      outer := ?_
      symm := ?_
      conn := ?_
      closed := ?_
      count := ?_
      logNodup := ?_
      logMem := ?_
      rank := carved_rank hc hd hav hint hI.rank }
  · intro p hp
    rw [hst] at hp
    rcases List.mem_cons.mp hp with rfl | hp
    · rw [carved_visited hc, if_pos rfl]
    · exact hvmono p (hI.stackV p hp)
  · intro p hp d1 hd1
    rw [carved_visited hc] at hp
    by_cases hpb : p = nbr a d
    · rw [if_pos hpb] at hp; cases hp
    · rw [if_neg hpb] at hp
      have hpa : p ≠ a := by
        rintro rfl
        rw [hav] at hp
        cases hp
      rw [carved_canMove hc, if_neg (fun h => hpb h.1), if_neg (fun h => hpa h.1)]
      exact hI.intact p hp d1 hd1
  · intro p d1 hp hd1 hout
    rw [carved_canMove hc]
    have e1 : ¬ (p = nbr a d ∧ d1 = opp d) := by
      rintro ⟨rfl, rfl⟩
      rw [nbr_opp a d hd] at hout
      exact hout ha
    have e2 : ¬ (p = a ∧ d1 = d) := by
      rintro ⟨rfl, rfl⟩
      exact hout hb
    rw [if_neg e1, if_neg e2]
    exact hI.outer p d1 hp hd1 hout
  · intro p d1 hp hd1 hq
    rw [carved_canMove hc, carved_canMove hc]
    by_cases e1 : p = nbr a d ∧ d1 = opp d
    · rw [if_pos e1]
      obtain ⟨rfl, rfl⟩ := e1
      rw [nbr_opp a d hd, opp_opp d hd, if_neg (fun h => hab h.1), if_pos ⟨rfl, rfl⟩]
    · rw [if_neg e1]
      by_cases e2 : p = a ∧ d1 = d
      · rw [if_pos e2]
        obtain ⟨rfl, rfl⟩ := e2
        rw [if_pos ⟨rfl, rfl⟩]
      · rw [if_neg e2]
        have e3 : ¬ (nbr p d1 = nbr a d ∧ opp d1 = opp d) :=
          fun h => e2 (pair_flip_left p a d d1 hd hd1 h)
        have e4 : ¬ (nbr p d1 = a ∧ opp d1 = d) :=
          fun h => e1 (pair_flip_right p a d d1 hd1 h)
        rw [if_neg e3, if_neg e4]
        exact hI.symm p d1 hp hd1 hq
  · intro p hp
    rw [carved_visited hc] at hp
    by_cases hpb : p = nbr a d
    · subst hpb
      have h1 : Reachable s1.grid a :=
        Relation.ReflTransGen.mono (carved_passage_mono hc) (hI.conn a hav)
      exact Relation.ReflTransGen.tail h1 (carved_passage_new hc hd).1
    · rw [if_neg hpb] at hp
      exact Relation.ReflTransGen.mono (carved_passage_mono hc) (hI.conn p hp)
  · intro p hp hps d1 hd1 hq
    rw [hst] at hps
    have hpb : p ≠ nbr a d := fun h => hps (h ▸ List.mem_cons_self _ _)
    have hps1 : p ∉ s.stack := fun h => hps (List.mem_cons_of_mem _ h)
    rw [carved_visited hc, if_neg hpb] at hp
    exact hvmono _ (hI.closed p hp hps1 d1 hd1 hq)
  · obtain ⟨e0, he0, hP⟩ := carved_passageSet hc hd ha hb hint
    obtain ⟨hbn, hV⟩ := carved_visitedSet hc hb hbv
    unfold passageCount
    rw [hP, hV, Finset.card_insert_of_not_mem he0, Finset.card_insert_of_not_mem hbn]
    have := hI.count
    unfold passageCount at this
    omega
  · rw [hpu]
    refine List.nodup_cons.mpr ⟨?_, hI.logNodup⟩
    intro h
    rw [hI.logMem, hbv] at h
    cases h
  · intro p
    rw [hpu, List.mem_cons, carved_visited hc, hI.logMem]
    by_cases hpb : p = nbr a d
    · simp [hpb]
    · simp [hpb]

/-! ## The loop of `GenerateMaze` -/

theorem genInv_pop {width height : Int} {s : GenState} {top : Int × Int}
    {below : List (Int × Int)} (hI : GenInv width height s) (hs : s.stack = top :: below)
    (hall : ∀ d ∈ allDirs, inGrid width height (nbr top d) →
      vget s.visited (nbr top d).1 (nbr top d).2 = .ok true) :
    GenInv width height { s with stack := below } := by
  refine
    { gridDom := hI.gridDom
      visDom := hI.visDom
      entry := hI.entry
      stackV := ?_
      intact := hI.intact
      outer := hI.outer
      symm := hI.symm
      conn := hI.conn
      closed := ?_
      count := hI.count
      logNodup := hI.logNodup
      logMem := hI.logMem
      rank := hI.rank }
  · intro p hp
    exact hI.stackV p (by rw [hs]; exact List.mem_cons_of_mem _ hp)
  · intro p hp hps d hd hq
    by_cases hpt : p = top
    · subst hpt
      exact hall d hd hq
    · apply hI.closed p hp _ d hd hq
      rw [hs]
      intro h
      rcases List.mem_cons.mp h with h | h
      · exact hpt h
      · exact hps h

theorem canMove_initGrid {width height : Int} {g : List (List Cell)}
    (hg : Maze.initGrid width height = .ok g) (p : Int × Int) (d : Int)
    (hp : inGrid width height p) (hd : d ∈ allDirs) : CanMove g p.1 p.2 d = .ok false := by
  unfold CanMove
  rw [vget_initGrid width height g hg, if_pos hp]
  rw [mem_allDirs] at hd
  rcases hd with rfl | rfl | rfl | rfl <;> rfl

theorem hasDom_initGrid {width height : Int} {g : List (List Cell)}
    (hg : Maze.initGrid width height = .ok g) : HasDom width height g := by
  intro x y
  rw [vget_initGrid width height g hg]
  by_cases h : inGrid width height (x, y)
  · simp [h]
  · simp [h]

theorem hasDom_newVec2 {α : Type} {width height : Int} {a : α} {v : List (List α)}
    (hv : newVec2 height width a = .ok v) : HasDom width height v := by
  intro x y
  rw [vget_newVec2 height width a v hv]
  by_cases h : inGrid width height (x, y)
  · simp [h]
  · simp [h]

theorem genInv_init {width height : Int} (hw : 1 ≤ width) (hh : 1 ≤ height)
    {g : List (List Cell)} {v0 v : List (List Bool)}
    (hg : Maze.initGrid width height = .ok g)
    (hv0 : newVec2 height width false = .ok v0) (hv : vset v0 0 0 true = .ok v) :
    GenInv width height ⟨g, v, [(0, 0)], [(0, 0)]⟩ := by
  have h00 : inGrid width height (0, 0) := ⟨le_refl _, by omega, le_refl _, by omega⟩
  have hvget : ∀ p : Int × Int, vget v p.1 p.2 =
      if p = (0, 0) then .ok true
      else if inGrid width height p then .ok false else .error .outOfBounds := by
    intro p
    rw [vget_vset v0 v 0 0 true hv, vget_newVec2 height width false v0 hv0]
    have : (p.1 = 0 ∧ p.2 = 0) ↔ p = (0, 0) := by rw [Prod.ext_iff]
    simp only [this]
  have hvis : ∀ p : Int × Int, vget v p.1 p.2 = .ok true → p = (0, 0) := by
    intro p hp
    rw [hvget] at hp
    by_contra hne
    rw [if_neg hne] at hp
    split_ifs at hp
    cases hp
  have hnoP : ∀ a b, ¬ Passage g a b := by
    intro a b h
    obtain ⟨⟨d, hd, h1⟩, _⟩ := passage_canMove h
    have := (canMove_ok h1).1
    have hin : inGrid width height a := (hasDom_initGrid hg a.1 a.2).mpr this
    rw [canMove_initGrid hg a d hin hd] at h1
    cases h1
  have hvd : HasDom width height v := hasDom_of_vset _ _ _ _ _ _ _ (hasDom_newVec2 hv0) hv
  refine
    { gridDom := hasDom_initGrid hg
      visDom := hvd
      entry := by have := hvget (0, 0); simpa using this
      stackV := ?_
      intact := ?_
      outer := ?_
      symm := ?_
      conn := ?_
      closed := ?_
      count := ?_
      logNodup := List.nodup_singleton _
      logMem := ?_
      rank := ⟨fun _ => 0, 1, fun _ _ => Nat.zero_lt_one, fun a b h => absurd h (hnoP a b),
        fun a b _ h => absurd h (hnoP a b)⟩ }
  · intro p hp
    rcases List.mem_singleton.mp hp with rfl
    have := hvget (0, 0)
    simpa using this
  · intro p hp d hd
    exact canMove_initGrid hg p d (inGrid_of_vget hvd hp) hd
  · intro p d hp hd _
    exact canMove_initGrid hg p d hp hd
  · intro p d hp hd hq
    rw [canMove_initGrid hg p d hp hd, canMove_initGrid hg _ _ hq (opp_mem_allDirs d hd)]
  · intro p hp
    rw [hvis p hp]
    exact Relation.ReflTransGen.refl
  · intro p hp hps
    exact absurd (List.mem_singleton.mpr (hvis p hp)) hps
  · have hP : passageSet g width height = ∅ := by
      ext e
      rw [mem_passageSet]
      simp only [Finset.not_mem_empty, iff_false]
      intro h
      exact hnoP _ _ h.2.2
    have hV : visitedSet v width height = {(0, 0)} := by
      ext p
      rw [mem_visitedSet, Finset.mem_singleton]
      constructor
      · rintro ⟨_, h⟩
        exact hvis p h
      · rintro rfl
        refine ⟨h00, ?_⟩
        have := hvget (0, 0)
        simpa using this
    unfold passageCount
    rw [hP, hV]
    rfl
  · intro p
    rw [List.mem_singleton]
    constructor
    · rintro rfl
      have := hvget (0, 0)
      simpa using this
    · exact hvis p

theorem card_visitedSet_le (visited : List (List Bool)) (width height : Int) :
    (visitedSet visited width height).card ≤ width.toNat * height.toNat := by
  unfold visitedSet
  refine le_trans (Finset.card_filter_le _ _) ?_
  rw [Finset.card_product, Int.card_Ico, Int.card_Ico]
  simp

theorem genLoop_terminates (width height : Int) (shuffle : Nat → List Int)
    (hsh : ∀ i, List.Perm (shuffle i) allDirs) :
    ∀ (fuel i : Nat) (s : GenState), GenInv width height s →
      2 * (width.toNat * height.toNat) + s.stack.length
        ≤ fuel + 2 * (visitedSet s.visited width height).card →
      ∃ s1, GenerateMaze.loop width height shuffle fuel i s = .ok s1 ∧
        GenInv width height s1 ∧ s1.stack = [] := by
  intro fuel
  induction fuel with
  | zero =>
    intro i s hI hm
    have hle := card_visitedSet_le s.visited width height
    have hlen : s.stack.length = 0 := by omega
    have hnil : s.stack = [] := List.length_eq_zero.mp hlen
    refine ⟨s, ?_, hI, hnil⟩
    unfold GenerateMaze.loop
    rw [hnil]
  | succ fuel ih =>
    intro i s hI hm
    cases hst : s.stack with
    | nil =>
      refine ⟨s, ?_, hI, hst⟩
      unfold GenerateMaze.loop
      rw [hst]
    | cons top below =>
      obtain ⟨x, y⟩ := top
      have hxyv := hI.stackV (x, y) (by rw [hst]; exact List.mem_cons_self _ _)
      have hxy : inGrid width height (x, y) := inGrid_of_vget hI.visDom hxyv
      have hds : ∀ d ∈ shuffle i, d ∈ allDirs := fun d hd => (hsh i).mem_iff.mp hd
      rw [hst] at hm
      unfold GenerateMaze.loop
      rw [hst]
      simp only
      rcases scan_spec width height s x y hI.gridDom hI.visDom hxy (shuffle i) hds with
        ⟨h1, h2⟩ | ⟨s1, d, h1, h2, h3, h4, h5⟩
      · rw [h1]
        simp only
        have hI1 : GenInv width height { s with stack := below } := by
          apply genInv_pop hI hst
          intro d hd hq
          exact h2 d ((hsh i).mem_iff.mpr hd) hq
        apply ih (i + 1) _ hI1
        simp only [List.length_cons] at hm ⊢
        omega
      · rw [h1]
        simp only
        have hd : d ∈ allDirs := hds d h2
        have hI1 : GenInv width height s1 := genInv_carved hI h5 hd hxyv h3 h4
        apply ih (i + 1) _ hI1
        obtain ⟨hbn, hV⟩ := carved_visitedSet h5 h3 h4
        rw [hV, Finset.card_insert_of_not_mem hbn]
        obtain ⟨g1, _, _, _, hstk, _⟩ := h5
        rw [hstk, hst]
        simp only [List.length_cons] at hm ⊢
        omega

/-! ## The direction loop of `FindSolution` -/

theorem vget_vset_pair {α : Type} {v v1 : List (List α)} {q : Int × Int} {a : α}
    (h : vset v q.1 q.2 a = .ok v1) (p : Int × Int) :
    vget v1 p.1 p.2 = if p = q then .ok a else vget v p.1 p.2 := by
  rw [vget_vset _ _ _ _ _ h]
  have e1 : (p.1 = q.1 ∧ p.2 = q.2) ↔ p = q := by rw [Prod.ext_iff]
  simp only [e1]

theorem visitedSet_vset {width height : Int} {v v1 : List (List Bool)} {q : Int × Int}
    (h : vset v q.1 q.2 true = .ok v1) (hq : inGrid width height q)
    (hqv : vget v q.1 q.2 = .ok false) :
    (visitedSet v1 width height).card = (visitedSet v width height).card + 1 := by
  have hn : q ∉ visitedSet v width height := by
    rw [mem_visitedSet, hqv]
    rintro ⟨_, h⟩
    cases h
  have hV : visitedSet v1 width height = insert q (visitedSet v width height) := by
    ext p
    rw [Finset.mem_insert, mem_visitedSet, mem_visitedSet, vget_vset_pair h]
    by_cases hp : p = q
    · rw [if_pos hp]
      subst hp
      simp [hq]
    · rw [if_neg hp]
      simp [hp]
  rw [hV, Finset.card_insert_of_not_mem hn]

theorem canMove_of_hasWall {grid : List (List Cell)} {x y d : Int} {c : Cell} {w : Bool}
    (hc : vget grid x y = .ok c) (hw : c.HasWall d = .ok w) :
    CanMove grid x y d = .ok (!w) := by
  unfold CanMove
  rw [hc]
  simp only
  rw [hw]

theorem hasWall_total (c : Cell) {d : Int} (hd : d ∈ allDirs) : ∃ w, c.HasWall d = .ok w := by
  rw [mem_allDirs] at hd
  rcases hd with rfl | rfl | rfl | rfl <;> exact ⟨_, rfl⟩

theorem walled_step_inGrid {width height : Int} {grid : List (List Cell)}
    (hG : WalledGrid width height grid) {p : Int × Int} {d : Int}
    (h : CanMove grid p.1 p.2 d = .ok true) : inGrid width height (nbr p d) := by
  by_contra hout
  obtain ⟨⟨c, hc⟩, hd⟩ := canMove_ok h
  have hp : inGrid width height p := (hG.dom p.1 p.2).mpr ⟨c, hc⟩
  rw [hG.outer p d hp hd hout] at h
  cases h

/-! ### Rounding to `float` -/

theorem f32_exact (n : Int) (h : n.natAbs ≤ 2 ^ 24) : f32 n = n := by
  rcases Nat.lt_or_ge n.natAbs (2 ^ 24) with h1 | h1
  · unfold f32 ulp32
    simp only [if_pos h1, Nat.div_one, Nat.mod_one, Nat.mul_one]
    exact Int.sign_mul_natAbs n
  · have h2 : n.natAbs = 2 ^ 24 := le_antisymm h h1
    rcases Int.natAbs_eq n with h3 | h3 <;> rw [h2] at h3 <;> rw [h3] <;> decide

theorem f32_exact_of_le (n : Int) (h0 : -1 ≤ n) (h1 : n ≤ 2 ^ 24) : f32 n = n := by
  apply f32_exact
  have h2 : (n.natAbs : Int) ≤ 2 ^ 24 := by
    rcases Int.natAbs_eq n with h3 | h3 <;> omega
  exact_mod_cast h2

theorem f32_top_succ : f32 (2 ^ 24 + 1) = 2 ^ 24 := by decide

/-- A coordinate between 0 and 2^24, moved by -1, 0 or 1 and rounded, is the
moved coordinate when that is at most 2^24, and the coordinate itself otherwise. -/
theorem f32_shift (x o : Int) (h0 : 0 ≤ x) (h1 : x ≤ 2 ^ 24) (ho : o = -1 ∨ o = 0 ∨ o = 1) :
    (f32 (x + o) = x + o ∧ x + o ≤ 2 ^ 24) ∨ (f32 (x + o) = x ∧ o = 1 ∧ x = 2 ^ 24) := by
  by_cases h : x + o ≤ 2 ^ 24
  · left
    exact ⟨f32_exact_of_le _ (by rcases ho with rfl | rfl | rfl <;> omega) h, h⟩
  · right
    have hx : x = 2 ^ 24 := by rcases ho with rfl | rfl | rfl <;> omega
    have ho1 : o = 1 := by rcases ho with rfl | rfl | rfl <;> omega
    subst hx
    subst ho1
    exact ⟨f32_top_succ, rfl, rfl⟩

/-- The neighbour that the search computes from a cell with coordinates between
0 and 2^24 is the true neighbour, or the cell itself when the true neighbour
lies beyond 2^24. -/
theorem fnbr_cases (p : Int × Int) (d : Int) (hd : d ∈ allDirs)
    (h1 : 0 ≤ p.1) (h2 : p.1 ≤ 2 ^ 24) (h3 : 0 ≤ p.2) (h4 : p.2 ≤ 2 ^ 24) :
    (fnbr p d = nbr p d ∧ (nbr p d).1 ≤ 2 ^ 24 ∧ (nbr p d).2 ≤ 2 ^ 24) ∨ fnbr p d = p := by
  have hox : offX d = -1 ∨ offX d = 0 ∨ offX d = 1 := by
    rw [mem_allDirs] at hd
    rcases hd with rfl | rfl | rfl | rfl <;> simp [offX]
  have hoy : offY d = -1 ∨ offY d = 0 ∨ offY d = 1 := by
    rw [mem_allDirs] at hd
    rcases hd with rfl | rfl | rfl | rfl <;> simp [offY]
  have hxy : offX d = 0 ∨ offY d = 0 := by
    rw [mem_allDirs] at hd
    rcases hd with rfl | rfl | rfl | rfl <;> simp [offX, offY]
  rcases f32_shift p.1 (offX d) h1 h2 hox with ⟨hx, hxs⟩ | ⟨hx, hx1, _⟩
  · rcases f32_shift p.2 (offY d) h3 h4 hoy with ⟨hy, hys⟩ | ⟨hy, hy1, _⟩
    · left
      exact ⟨Prod.ext hx hy, hxs, hys⟩
    · right
      have hx0 : offX d = 0 := by rcases hxy with h | h <;> omega
      refine Prod.ext ?_ hy
      show f32 (p.1 + offX d) = p.1
      rw [hx, hx0, add_zero]
  · right
    have hy0 : offY d = 0 := by rcases hxy with h | h <;> omega
    refine Prod.ext hx ?_
    show f32 (p.2 + offY d) = p.2
    rw [hy0, add_zero]
    exact f32_exact_of_le _ (by omega) h4

/-! ### Marking a cell -/

/-- Marking a fresh computed neighbour of the scanned cell keeps the invariant. -/
theorem solveInv_mark {width height : Int} {grid : List (List Cell)} {cur : Int × Int}
    {s : SolveState} {d : Int} {v1 : List (List Bool)} {p1 : List (List (Int × Int))}
    (hI : SolveInv width height grid [cur] s)
    (hcur : vget s.visited cur.1 cur.2 = .ok true)
    (hd : d ∈ allDirs) (hmove : CanMove grid cur.1 cur.2 d = .ok true)
    (hnv : vget s.visited (fnbr cur d).1 (fnbr cur d).2 = .ok false)
    (hv1 : vset s.visited (fnbr cur d).1 (fnbr cur d).2 true = .ok v1)
    (hp1 : vset s.parent (fnbr cur d).1 (fnbr cur d).2 cur = .ok p1) :
    SolveInv width height grid [cur] ⟨s.queue ++ [fnbr cur d], v1, p1⟩ := by
  have hnin : inGrid width height (fnbr cur d) := inGrid_of_vget hI.visDom hnv
  have hcin : inGrid width height cur := inGrid_of_vget hI.visDom hcur
  have hcs := hI.small cur hcur
  have hne : fnbr cur d ≠ cur := by
    intro h
    rw [h, hcur] at hnv
    cases hnv
  obtain ⟨hfn, hsm1, hsm2⟩ : fnbr cur d = nbr cur d ∧ (nbr cur d).1 ≤ 2 ^ 24 ∧
      (nbr cur d).2 ≤ 2 ^ 24 := by
    rcases fnbr_cases cur d hd hcin.1 hcs.1 hcin.2.2.1 hcs.2 with h | h
    · exact h
    · exact absurd h hne
  have hvmono : ∀ p : Int × Int, vget s.visited p.1 p.2 = .ok true →
      vget v1 p.1 p.2 = .ok true := by
    intro p hp
    rw [vget_vset_pair hv1]
    split_ifs
    · rfl
    · exact hp
  have hne_of : ∀ p : Int × Int, vget s.visited p.1 p.2 = .ok true → p ≠ fnbr cur d := by
    rintro p hp rfl
    rw [hnv] at hp
    cases hp
  have hcard := visitedSet_vset hv1 hnin hnv
  refine
    { visDom := hasDom_of_vset _ _ _ _ _ _ _ hI.visDom hv1
      parDom := hasDom_of_vset _ _ _ _ _ _ _ hI.parDom hp1
      entry := hvmono (0, 0) hI.entry
      entryPar := ?_
      queueV := ?_
      small := ?_
      sound := ?_
      fsound := ?_
      closed := ?_
      rank := ?_ }
  · have := vget_vset_pair hp1 (0, 0)
    rw [if_neg (hne_of (0, 0) hI.entry)] at this
    rw [← hI.entryPar]
    exact this
  · intro p hp
    rcases List.mem_append.mp hp with hp | hp
    · exact hvmono p (hI.queueV p hp)
    · rw [List.mem_singleton.mp hp]
      show vget v1 (fnbr cur d).1 (fnbr cur d).2 = .ok true
      rw [vget_vset_pair hv1, if_pos rfl]
  · intro p hp
    change vget v1 p.1 p.2 = .ok true at hp
    rw [vget_vset_pair hv1] at hp
    by_cases hpn : p = fnbr cur d
    · rw [hpn, hfn]
      exact ⟨hsm1, hsm2⟩
    · rw [if_neg hpn] at hp
      exact hI.small p hp
  · intro p hp
    change vget v1 p.1 p.2 = .ok true at hp
    rw [vget_vset_pair hv1] at hp
    by_cases hpn : p = fnbr cur d
    · rw [hpn]
      exact Relation.ReflTransGen.tail (hI.sound cur hcur) ⟨d, hd, hmove, hfn⟩
    · rw [if_neg hpn] at hp
      exact hI.sound p hp
  · intro p hp
    change vget v1 p.1 p.2 = .ok true at hp
    rw [vget_vset_pair hv1] at hp
    by_cases hpn : p = fnbr cur d
    · rw [hpn]
      exact Relation.ReflTransGen.tail (hI.fsound cur hcur) ⟨d, hd, hmove, rfl⟩
    · rw [if_neg hpn] at hp
      exact hI.fsound p hp
  · intro p hp hpq hpe
    change vget v1 p.1 p.2 = .ok true at hp
    change p ∉ s.queue ++ [fnbr cur d] at hpq
    have hpn : p ≠ fnbr cur d := fun h => hpq (List.mem_append_right _ (List.mem_singleton.mpr h))
    have hpq1 : p ∉ s.queue := fun h => hpq (List.mem_append_left _ h)
    rw [vget_vset_pair hv1, if_neg hpn] at hp
    obtain ⟨h1, h2⟩ := hI.closed p hp hpq1 hpe
    exact ⟨h1, fun d1 hd1 hm => hvmono _ (h2 d1 hd1 hm)⟩
  · obtain ⟨r, hr1, hr2⟩ := hI.rank
    refine ⟨Function.update r (fnbr cur d) (visitedSet s.visited width height).card, ?_, ?_⟩
    · intro p hp
      change vget v1 p.1 p.2 = .ok true at hp
      change _ < (visitedSet v1 width height).card
      rw [hcard]
      rw [vget_vset_pair hv1] at hp
      by_cases hpn : p = fnbr cur d
      · rw [hpn, Function.update_same]
        exact Nat.lt_succ_self _
      · rw [if_neg hpn] at hp
        rw [Function.update_noteq hpn]
        exact Nat.lt_succ_of_lt (hr1 p hp)
    · intro p hp hp0
      change vget v1 p.1 p.2 = .ok true at hp
      rw [vget_vset_pair hv1] at hp
      by_cases hpn : p = fnbr cur d
      · refine ⟨cur, ?_, hvmono cur hcur, ?_, ?_⟩
        · show vget p1 p.1 p.2 = .ok cur
          rw [vget_vset_pair hp1, if_pos hpn]
        · rw [hpn]
          exact ⟨d, hd, hmove, hfn⟩
        · rw [hpn, Function.update_same, Function.update_noteq (hne_of cur hcur)]
          exact hr1 cur hcur
      · rw [if_neg hpn] at hp
        obtain ⟨q, hq1, hq2, hq3, hq4⟩ := hr2 p hp hp0
        refine ⟨q, ?_, hvmono q hq2, hq3, ?_⟩
        · show vget p1 p.1 p.2 = .ok q
          rw [vget_vset_pair hp1, if_neg hpn]
          exact hq1
        · rw [Function.update_noteq hpn, Function.update_noteq (hne_of q hq2)]
          exact hq4

theorem expand_spec {width height : Int} {grid : List (List Cell)}
    (hG : WalledGrid width height grid) (cur : Int × Int) :
    ∀ (ds : List Int), (∀ d ∈ ds, d ∈ allDirs) → ∀ s : SolveState,
      SolveInv width height grid [cur] s → vget s.visited cur.1 cur.2 = .ok true →
      ∃ s1, FindSolution.expand grid cur.1 cur.2 ds s = .ok s1 ∧
        SolveInv width height grid [cur] s1 ∧
        (∀ d ∈ ds, CanMove grid cur.1 cur.2 d = .ok true →
          vget s1.visited (fnbr cur d).1 (fnbr cur d).2 = .ok true) ∧
        (∀ p : Int × Int, vget s.visited p.1 p.2 = .ok true →
          vget s1.visited p.1 p.2 = .ok true) ∧
        s1.queue.length + (visitedSet s.visited width height).card =
          s.queue.length + (visitedSet s1.visited width height).card := by
  intro ds
  induction ds with
  | nil =>
    intro _ s hI _
    exact ⟨s, rfl, hI, fun d hd _ => absurd hd (List.not_mem_nil d), fun p hp => hp, rfl⟩
  | cons d rest ih =>
    intro hds s hI hcur
    have hd : d ∈ allDirs := hds d (List.mem_cons_self _ _)
    have hrest : ∀ d1 ∈ rest, d1 ∈ allDirs := fun d1 h1 => hds d1 (List.mem_cons_of_mem _ h1)
    have hcin : inGrid width height cur := inGrid_of_vget hI.visDom hcur
    have hcs := hI.small cur hcur
    obtain ⟨c, hc⟩ := (hG.dom cur.1 cur.2).mp hcin
    obtain ⟨w, hw⟩ := hasWall_total c hd
    have hmv := canMove_of_hasWall hc hw
    unfold FindSolution.expand
    rw [hc]
    simp only
    rw [hw]
    cases w with
    | true =>
      simp only
      obtain ⟨s1, h1, h2, h3, h4, h5⟩ := ih hrest s hI hcur
      refine ⟨s1, h1, h2, ?_, h4, h5⟩
      intro d1 hd1 hm
      rcases List.mem_cons.mp hd1 with rfl | hd1
      · rw [hmv] at hm; cases hm
      · exact h3 d1 hd1 hm
    | false =>
      simp only
      have hmove : CanMove grid cur.1 cur.2 d = .ok true := hmv
      have hnin : inGrid width height (fnbr cur d) := by
        rcases fnbr_cases cur d hd hcin.1 hcs.1 hcin.2.2.1 hcs.2 with h | h
        · rw [h.1]
          exact walled_step_inGrid hG hmove
        · rw [h]
          exact hcin
      have hnsm : (fnbr cur d).1 ≤ 2 ^ 24 ∧ (fnbr cur d).2 ≤ 2 ^ 24 := by
        rcases fnbr_cases cur d hd hcin.1 hcs.1 hcin.2.2.1 hcs.2 with h | h
        · rw [h.1]
          exact h.2
        · rw [h]
          exact hcs
      obtain ⟨vb, hvb⟩ : ∃ vb, vget s.visited (fnbr cur d).1 (fnbr cur d).2 = .ok vb :=
        (hI.visDom _ _).mp hnin
      have hvb1 : vget s.visited (f32 (cur.1 + offX d)) (f32 (cur.2 + offY d)) = .ok vb := hvb
      rw [hvb1]
      cases vb with
      | true =>
        simp only
        obtain ⟨s1, h1, h2, h3, h4, h5⟩ := ih hrest s hI hcur
        refine ⟨s1, h1, h2, ?_, h4, h5⟩
        intro d1 hd1 hm
        rcases List.mem_cons.mp hd1 with rfl | hd1
        · exact h4 _ hvb
        · exact h3 d1 hd1 hm
      | false =>
        simp only
        obtain ⟨v1, hv1⟩ : ∃ v1, vset s.visited (fnbr cur d).1 (fnbr cur d).2 true = .ok v1 :=
          vset_of_vget s.visited _ _ true false hvb
        obtain ⟨pb, hpb⟩ : ∃ pb, vget s.parent (fnbr cur d).1 (fnbr cur d).2 = .ok pb :=
          (hI.parDom _ _).mp hnin
        obtain ⟨p1, hp1⟩ : ∃ p1, vset s.parent (fnbr cur d).1 (fnbr cur d).2 cur = .ok p1 :=
          vset_of_vget s.parent _ _ cur pb hpb
        have hv1a : vset s.visited (f32 (cur.1 + offX d)) (f32 (cur.2 + offY d)) true =
            .ok v1 := hv1
        have hp1a : vset s.parent (f32 (cur.1 + offX d)) (f32 (cur.2 + offY d))
            (cur.1, cur.2) = .ok p1 := hp1
        have hpush : (f32 (f32 (cur.1 + offX d)), f32 (f32 (cur.2 + offY d))) = fnbr cur d := by
          have e1 : f32 (fnbr cur d).1 = (fnbr cur d).1 :=
            f32_exact_of_le _ (by have := hnin.1; omega) hnsm.1
          have e2 : f32 (fnbr cur d).2 = (fnbr cur d).2 :=
            f32_exact_of_le _ (by have := hnin.2.2.1; omega) hnsm.2
          exact Prod.ext e1 e2
        rw [hv1a]
        simp only
        rw [hp1a]
        simp only
        rw [hpush]
        have hI1 := solveInv_mark hI hcur hd hmove hvb hv1 hp1
        have hcur1 : vget v1 cur.1 cur.2 = .ok true := by
          rw [vget_vset_pair hv1]
          split_ifs
          · rfl
          · exact hcur
        obtain ⟨s1, h1, h2, h3, h4, h5⟩ := ih hrest _ hI1 hcur1
        have hmono : ∀ p : Int × Int, vget s.visited p.1 p.2 = .ok true →
            vget v1 p.1 p.2 = .ok true := by
          intro p hp
          rw [vget_vset_pair hv1]
          split_ifs
          · rfl
          · exact hp
        refine ⟨s1, h1, h2, ?_, fun p hp => h4 p (hmono p hp), ?_⟩
        · intro d1 hd1 hm
          rcases List.mem_cons.mp hd1 with rfl | hd1
          · apply h4
            show vget v1 (fnbr cur d1).1 (fnbr cur d1).2 = .ok true
            rw [vget_vset_pair hv1, if_pos rfl]
          · exact h3 d1 hd1 hm
        · have hcard := visitedSet_vset hv1 hnin hvb
          simp only [List.length_append, List.length_singleton] at h5
          change s1.queue.length + (visitedSet v1 width height).card = _ at h5
          omega

/-! ## Path reconstruction and the search loop of `FindSolution` -/

theorem reconstruct_stop (parent : List (List (Int × Int))) (fuel : Nat)
    (acc : List (Int × Int)) :
    FindSolution.reconstruct parent fuel (-1, -1) acc = .ok acc := by
  unfold FindSolution.reconstruct
  simp

theorem reconstruct_step (parent : List (List (Int × Int))) (fuel : Nat) (p q : Int × Int)
    (acc : List (Int × Int)) (hp : 0 ≤ p.1 ∧ 0 ≤ p.2) (hq : vget parent p.1 p.2 = .ok q) :
    FindSolution.reconstruct parent (fuel + 1) p acc =
      FindSolution.reconstruct parent fuel q (acc ++ [p]) := by
  conv_lhs => unfold FindSolution.reconstruct
  have h1 : p.1 ≠ -1 ∧ p.2 ≠ -1 := by
    constructor <;> omega
  rw [if_pos h1]
  simp only
  rw [hq]

theorem reconstruct_spec {width height : Int} {grid : List (List Cell)}
    {visited : List (List Bool)} {parent : List (List (Int × Int))} (r : Int × Int → Nat)
    (hvd : HasDom width height visited)
    (hpar0 : vget parent 0 0 = .ok (-1, -1))
    (hr : ∀ p : Int × Int, vget visited p.1 p.2 = .ok true → p ≠ (0, 0) →
      ∃ q : Int × Int, vget parent p.1 p.2 = .ok q ∧ vget visited q.1 q.2 = .ok true ∧
        Step grid q p ∧ r q < r p) :
    ∀ (n : Nat) (p : Int × Int), vget visited p.1 p.2 = .ok true → r p ≤ n →
      ∀ (fuel : Nat) (acc : List (Int × Int)), n + 1 ≤ fuel →
      ∃ l, FindSolution.reconstruct parent fuel p acc = .ok (acc ++ l) ∧
        l.head? = some p ∧ l.getLast? = some (0, 0) ∧
        List.Chain' (fun a b => Step grid b a) l ∧ (∀ x ∈ l, r x ≤ r p) ∧ l.Nodup ∧
        (∀ x ∈ l, x = (0, 0) ∨ vget visited x.1 x.2 = .ok true) := by
  intro n
  induction n with
  | zero =>
    intro p hp hrp fuel acc hf
    obtain ⟨f, rfl⟩ : ∃ f, fuel = f + 1 := ⟨fuel - 1, by omega⟩
    by_cases hp0 : p = (0, 0)
    · subst hp0
      refine ⟨[(0, 0)], ?_, rfl, rfl, List.chain'_singleton _, ?_, List.nodup_singleton _,
        fun x hx => Or.inl (List.mem_singleton.mp hx)⟩
      · rw [reconstruct_step parent f (0, 0) (-1, -1) acc ⟨le_refl _, le_refl _⟩ hpar0,
          reconstruct_stop]
      · intro x hx
        rw [List.mem_singleton.mp hx]
    · obtain ⟨q, _, _, _, hq4⟩ := hr p hp hp0
      omega
  | succ m ih =>
    intro p hp hrp fuel acc hf
    obtain ⟨f, rfl⟩ : ∃ f, fuel = f + 1 := ⟨fuel - 1, by omega⟩
    by_cases hp0 : p = (0, 0)
    · subst hp0
      refine ⟨[(0, 0)], ?_, rfl, rfl, List.chain'_singleton _, ?_, List.nodup_singleton _,
        fun x hx => Or.inl (List.mem_singleton.mp hx)⟩
      · rw [reconstruct_step parent f (0, 0) (-1, -1) acc ⟨le_refl _, le_refl _⟩ hpar0,
          reconstruct_stop]
      · intro x hx
        rw [List.mem_singleton.mp hx]
    · obtain ⟨q, hq1, hq2, hq3, hq4⟩ := hr p hp hp0
      have hpin : inGrid width height p := inGrid_of_vget hvd hp
      obtain ⟨l, hl1, hl2, hl3, hl4, hl5, hl6, hl7⟩ :=
        ih q hq2 (by omega) f (acc ++ [p]) (by omega)
      refine ⟨p :: l, ?_, rfl, ?_, ?_, ?_, ?_, ?_⟩
      · rw [reconstruct_step parent f p q acc ⟨hpin.1, hpin.2.2.1⟩ hq1, hl1]
        simp
      · cases l with
        | nil => cases hl2
        | cons a l1 =>
          rw [List.getLast?_cons_cons]
          exact hl3
      · cases l with
        | nil => exact List.chain'_singleton _
        | cons a l1 =>
          have : a = q := by simpa using hl2
          subst this
          exact List.Chain'.cons hq3 hl4
      · intro x hx
        rcases List.mem_cons.mp hx with rfl | hx
        · exact le_refl _
        · have := hl5 x hx
          omega
      · refine List.nodup_cons.mpr ⟨?_, hl6⟩
        intro hx
        have := hl5 p hx
        omega
      · intro x hx
        rcases List.mem_cons.mp hx with rfl | hx
        · exact Or.inr hp
        · exact hl7 x hx

theorem solveInv_init {width height : Int} (hw : 1 ≤ width) (hh : 1 ≤ height)
    (grid : List (List Cell)) {v0 v : List (List Bool)} {parent : List (List (Int × Int))}
    (hv0 : newVec2 height width false = .ok v0)
    (hpar : newVec2 height width ((-1 : Int), (-1 : Int)) = .ok parent)
    (hv : vset v0 0 0 true = .ok v) :
    SolveInv width height grid [] ⟨[(0, 0)], v, parent⟩ ∧
      (visitedSet v width height).card = 1 := by
  have h00 : inGrid width height (0, 0) := ⟨le_refl _, by omega, le_refl _, by omega⟩
  have hvget : ∀ p : Int × Int, vget v p.1 p.2 =
      if p = (0, 0) then .ok true
      else if inGrid width height p then .ok false else .error .outOfBounds := by
    intro p
    rw [vget_vset v0 v 0 0 true hv, vget_newVec2 height width false v0 hv0]
    have : (p.1 = 0 ∧ p.2 = 0) ↔ p = (0, 0) := by rw [Prod.ext_iff]
    simp only [this]
  have hvis : ∀ p : Int × Int, vget v p.1 p.2 = .ok true → p = (0, 0) := by
    intro p hp
    rw [hvget] at hp
    by_contra hne
    rw [if_neg hne] at hp
    split_ifs at hp
    cases hp
  have h0v : vget v 0 0 = .ok true := by
    have := hvget (0, 0)
    simpa using this
  have hV : visitedSet v width height = {(0, 0)} := by
    ext p
    rw [mem_visitedSet, Finset.mem_singleton]
    constructor
    · rintro ⟨_, h⟩
      exact hvis p h
    · rintro rfl
      exact ⟨h00, h0v⟩
  refine ⟨?_, by rw [hV]; rfl⟩
  refine
    { visDom := hasDom_of_vset _ _ _ _ _ _ _ (hasDom_newVec2 hv0) hv
      parDom := hasDom_newVec2 hpar
      entry := h0v
      entryPar := by rw [vget_newVec2 height width _ parent hpar, if_pos h00]
      queueV := ?_
      small := ?_
      sound := ?_
      fsound := ?_
      closed := ?_
      rank := ?_ }
  · intro p hp
    rw [List.mem_singleton.mp hp]
    exact h0v
  · intro p hp
    rw [hvis p hp]
    exact ⟨by norm_num, by norm_num⟩
  · intro p hp
    rw [hvis p hp]
  · intro p hp
    rw [hvis p hp]
  · intro p hp hpq
    exact absurd (List.mem_singleton.mpr (hvis p hp)) hpq
  · refine ⟨fun _ => 0, ?_, ?_⟩
    · intro p _
      change 0 < (visitedSet v width height).card
      rw [hV]
      exact Nat.zero_lt_one
    · intro p hp hp0
      exact absurd (hvis p hp) hp0

/-- The outcome of the search: either the queue ran dry, nothing was written to
`solution` and the search cannot reach the cell of its exit test, or `solution`
is a walk without repetition from the entry to that cell, through cells of the
grid with coordinates up to 2^24. -/
theorem solveLoop_spec {width height : Int} {grid : List (List Cell)}
    (hG : WalledGrid width height grid) (ds : List Int) (hds : List.Perm ds allDirs)
    (rfuel : Nat) (hrf : width.toNat * height.toNat ≤ rfuel) :
    ∀ (fuel : Nat) (s : SolveState), SolveInv width height grid [] s →
      2 * (width.toNat * height.toNat) + s.queue.length
        ≤ fuel + 2 * (visitedSet s.visited width height).card →
      ∃ path, FindSolution.loop grid width height ds rfuel fuel s = .ok path ∧
        ((path = [] ∧
            ¬ Relation.ReflTransGen (FStep grid) (0, 0) (fexit width height)) ∨
         (IsWalk (Step grid) (0, 0) (fexit width height) path ∧ path.Nodup ∧
            Relation.ReflTransGen (FStep grid) (0, 0) (fexit width height) ∧
            ∀ x ∈ path, inGrid width height x ∧ x.1 ≤ 2 ^ 24 ∧ x.2 ≤ 2 ^ 24)) := by
  have hdry : ∀ s : SolveState, SolveInv width height grid [] s → s.queue = [] →
      ¬ Relation.ReflTransGen (FStep grid) (0, 0) (fexit width height) := by
    intro s hI hq hreach
    have hall : ∀ p, Relation.ReflTransGen (FStep grid) (0, 0) p →
        vget s.visited p.1 p.2 = .ok true := by
      intro p hp
      induction hp with
      | refl => exact hI.entry
      | @tail b c _ hbc ihb =>
        obtain ⟨d, hd, hm, hc⟩ := hbc
        rw [hc]
        exact (hI.closed b ihb (by rw [hq]; exact List.not_mem_nil _)
          (List.not_mem_nil _)).2 d hd hm
    have hex := hall _ hreach
    exact (hI.closed _ hex (by rw [hq]; exact List.not_mem_nil _) (List.not_mem_nil _)).1 rfl
  intro fuel
  induction fuel with
  | zero =>
    intro s hI hm
    have hle := card_visitedSet_le s.visited width height
    have hlen : s.queue.length = 0 := by omega
    have hnil : s.queue = [] := List.length_eq_zero.mp hlen
    refine ⟨[], ?_, Or.inl ⟨rfl, hdry s hI hnil⟩⟩
    unfold FindSolution.loop
    rw [hnil]
  | succ fuel ih =>
    intro s hI hm
    cases hq : s.queue with
    | nil =>
      refine ⟨[], ?_, Or.inl ⟨rfl, hdry s hI hq⟩⟩
      unfold FindSolution.loop
      rw [hq]
    | cons cur rest =>
      obtain ⟨cx, cy⟩ := cur
      have hcv := hI.queueV (cx, cy) (by rw [hq]; exact List.mem_cons_self _ _)
      unfold FindSolution.loop
      rw [hq]
      simp only
      by_cases hexit : cx = f32 (width - 1) ∧ cy = f32 (height - 1)
      · rw [if_pos hexit]
        obtain ⟨r, hr1, hr2⟩ := hI.rank
        have hle := card_visitedSet_le s.visited width height
        have hrc := hr1 (cx, cy) hcv
        obtain ⟨l, hl1, hl2, hl3, hl4, _, hl6, hl7⟩ :=
          reconstruct_spec r hI.visDom hI.entryPar hr2 (r (cx, cy)) (cx, cy) hcv (le_refl _)
            rfuel [] (by omega)
        rw [hl1]
        simp only [List.nil_append]
        have hT : (cx, cy) = fexit width height := Prod.ext hexit.1 hexit.2
        refine ⟨l.reverse, rfl, Or.inr ⟨⟨?_, ?_, ?_⟩, List.nodup_reverse.mpr hl6, ?_, ?_⟩⟩
        · rw [List.head?_reverse, hl3]
        · rw [List.getLast?_reverse, hl2, hT]
        · rw [List.chain'_reverse]
          exact hl4
        · rw [← hT]
          exact hI.fsound _ hcv
        · intro x hx
          have hxv : vget s.visited x.1 x.2 = .ok true := by
            rcases hl7 x (List.mem_reverse.mp hx) with h | h
            · rw [h]; exact hI.entry
            · exact h
          have := hI.small x hxv
          exact ⟨inGrid_of_vget hI.visDom hxv, this.1, this.2⟩
      · rw [if_neg hexit]
        have hI0 : SolveInv width height grid [(cx, cy)] ⟨rest, s.visited, s.parent⟩ :=
          { visDom := hI.visDom
            parDom := hI.parDom
            entry := hI.entry
            entryPar := hI.entryPar
            queueV := fun p hp => hI.queueV p (by rw [hq]; exact List.mem_cons_of_mem _ hp)
            small := hI.small
            sound := hI.sound
            fsound := hI.fsound
            closed := by
              intro p hp hpq hpe
              apply hI.closed p hp _ (List.not_mem_nil _)
              rw [hq]
              intro h
              rcases List.mem_cons.mp h with h | h
              · exact hpe (List.mem_singleton.mpr h)
              · exact hpq h
            rank := hI.rank }
        have hdsm : ∀ d ∈ ds, d ∈ allDirs := fun d hd => hds.mem_iff.mp hd
        obtain ⟨s1, h1, h2, h3, h4, h5⟩ :=
          expand_spec hG (cx, cy) ds hdsm ⟨rest, s.visited, s.parent⟩ hI0 hcv
        have h1a : FindSolution.expand grid cx cy ds ⟨rest, s.visited, s.parent⟩ = .ok s1 := h1
        rw [h1a]
        simp only
        have hI1 : SolveInv width height grid [] s1 :=
          { visDom := h2.visDom
            parDom := h2.parDom
            entry := h2.entry
            entryPar := h2.entryPar
            queueV := h2.queueV
            small := h2.small
            sound := h2.sound
            fsound := h2.fsound
            closed := by
              intro p hp hpq _
              by_cases hpc : p = (cx, cy)
              · subst hpc
                refine ⟨fun h => hexit ⟨congrArg Prod.fst h, congrArg Prod.snd h⟩, ?_⟩
                intro d hd hm
                exact h3 d (hds.mem_iff.mpr hd) hm
              · exact h2.closed p hp hpq (fun h => hpc (List.mem_singleton.mp h))
            rank := h2.rank }
        apply ih s1 hI1
        have hmono : (visitedSet s.visited width height).card ≤
            (visitedSet s1.visited width height).card := by
          apply Finset.card_le_card
          intro p hp
          rw [mem_visitedSet] at hp ⊢
          exact ⟨hp.1, h4 p hp.2⟩
        rw [hq] at hm
        simp only [List.length_cons] at hm h5
        change s1.queue.length + (visitedSet s.visited width height).card =
          rest.length + (visitedSet s1.visited width height).card at h5
        omega

/-! ## Walks without repetition in a graph carved by depth-first search -/

theorem isWalk_reverse {r : Int × Int → Int × Int → Prop} (hsym : ∀ a b, r a b → r b a)
    {a b : Int × Int} {w : List (Int × Int)} (h : IsWalk r a b w) :
    IsWalk r b a w.reverse := by
  obtain ⟨h1, h2, h3⟩ := h
  refine ⟨by rw [List.head?_reverse, h2], by rw [List.getLast?_reverse, h1], ?_⟩
  rw [List.chain'_reverse]
  exact h3.imp (fun x y hxy => hsym x y hxy)

theorem isWalk_mono {r1 r2 : Int × Int → Int × Int → Prop} (h12 : ∀ a b, r1 a b → r2 a b)
    {a b : Int × Int} {w : List (Int × Int)} (h : IsWalk r1 a b w) : IsWalk r2 a b w :=
  ⟨h.1, h.2.1, h.2.2.imp (fun x y hxy => h12 x y hxy)⟩

/-- Once a walk without repetition climbs in rank, it ends above where it started. -/
theorem rank_climb {r : Int × Int → Int × Int → Prop} (t : Int × Int → Nat)
    (hsym : ∀ a b, r a b → r b a)
    (h1 : ∀ a b, r a b → t a ≠ t b)
    (h2 : ∀ a b c, r a b → r a c → t b < t a → t c < t a → b = c) :
    ∀ (l : List (Int × Int)) (a b v : Int × Int), List.Chain' r (a :: b :: l) →
      (a :: b :: l).Nodup → t a < t b → (a :: b :: l).getLast? = some v → t a < t v := by
  intro l
  induction l with
  | nil =>
    intro a b v _ _ hab hv
    have : b = v := by simpa using hv
    rw [← this]
    exact hab
  | cons c l ih =>
    intro a b v hch hnd hab hv
    have hrab : r a b := (List.chain'_cons.mp hch).1
    have hch1 : List.Chain' r (b :: c :: l) := (List.chain'_cons.mp hch).2
    have hrbc : r b c := (List.chain'_cons.mp hch1).1
    have hnd1 : (b :: c :: l).Nodup := (List.nodup_cons.mp hnd).2
    have hac : a ≠ c := by
      intro h
      have := (List.nodup_cons.mp hnd).1
      apply this
      rw [h]
      exact List.mem_cons_of_mem _ (List.mem_cons_self _ _)
    have hbc : t b < t c := by
      by_contra hn
      have hne := h1 b c hrbc
      have hcb : t c < t b := by omega
      exact hac (h2 b a c (hsym a b hrab) hrbc hab hcb)
    have hv1 : (b :: c :: l).getLast? = some v := by
      rw [List.getLast?_cons_cons] at hv
      exact hv
    have := ih b c v hch1 hnd1 hbc hv1
    omega

theorem walk_single {r : Int × Int → Int × Int → Prop} {u : Int × Int}
    {p : List (Int × Int)} (hp : IsWalk r u u p) (hnd : p.Nodup) : p = [u] := by
  obtain ⟨h1, h2, _⟩ := hp
  cases p with
  | nil => cases h1
  | cons a l =>
    have ha : a = u := by simpa using h1
    subst ha
    cases l with
    | nil => rfl
    | cons b l1 =>
      exfalso
      rw [List.getLast?_cons_cons] at h2
      have hmem : a ∈ b :: l1 := List.mem_of_getLast?_eq_some h2
      exact (List.nodup_cons.mp hnd).1 hmem

/-- In a graph whose vertices carry ranks such that neighbours have different
ranks and every vertex has at most one neighbour of lower rank, two walks
without repetition between the same cells are equal. -/
theorem walk_unique {r : Int × Int → Int × Int → Prop} (t : Int × Int → Nat)
    (hsym : ∀ a b, r a b → r b a)
    (h1 : ∀ a b, r a b → t a ≠ t b)
    (h2 : ∀ a b c, r a b → r a c → t b < t a → t c < t a → b = c) :
    ∀ (n : Nat) (u v : Int × Int) (p q : List (Int × Int)), p.length = n →
      IsWalk r u v p → p.Nodup → IsWalk r u v q → q.Nodup → p = q := by
  intro n
  induction n with
  | zero =>
    intro u v p q hlen hp _ _ _
    have : p = [] := List.length_eq_zero.mp hlen
    rw [this] at hp
    cases hp.1
  | succ n ih =>
    have A : ∀ (u v : Int × Int) (p q : List (Int × Int)), p.length = n + 1 →
        IsWalk r u v p → p.Nodup → IsWalk r u v q → q.Nodup → u ≠ v → t v ≤ t u → p = q := by
      intro u v p q hlen hp hpn hq hqn huv htv
      obtain ⟨hp1, hp2, hp3⟩ := hp
      obtain ⟨hq1, hq2, hq3⟩ := hq
      cases p with
      | nil => cases hp1
      | cons a p1 =>
        have ha : a = u := by simpa using hp1
        subst ha
        cases q with
        | nil => cases hq1
        | cons b q1 =>
          have hb : b = a := by simpa using hq1
          subst hb
          cases p1 with
          | nil =>
            exfalso
            apply huv
            simpa using hp2
          | cons w p2 =>
            cases q1 with
            | nil =>
              exfalso
              apply huv
              simpa using hq2
            | cons w1 q2 =>
              have hbw : r b w := (List.chain'_cons.mp hp3).1
              have hbw1 : r b w1 := (List.chain'_cons.mp hq3).1
              have hw : t w < t b := by
                by_contra hn
                have hne := h1 b w hbw
                have := rank_climb t hsym h1 h2 p2 b w v hp3 hpn (by omega) hp2
                omega
              have hw1 : t w1 < t b := by
                by_contra hn
                have hne := h1 b w1 hbw1
                have := rank_climb t hsym h1 h2 q2 b w1 v hq3 hqn (by omega) hq2
                omega
              have hww : w = w1 := h2 b w w1 hbw hbw1 hw hw1
              subst hww
              have hp' : IsWalk r w v (w :: p2) :=
                ⟨rfl, by rw [List.getLast?_cons_cons] at hp2; exact hp2,
                  (List.chain'_cons.mp hp3).2⟩
              have hq' : IsWalk r w v (w :: q2) :=
                ⟨rfl, by rw [List.getLast?_cons_cons] at hq2; exact hq2,
                  (List.chain'_cons.mp hq3).2⟩
              have := ih w v (w :: p2) (w :: q2) (by simpa using hlen) hp'
                (List.nodup_cons.mp hpn).2 hq' (List.nodup_cons.mp hqn).2
              rw [this]
    intro u v p q hlen hp hpn hq hqn
    by_cases huv : u = v
    · subst huv
      rw [walk_single hp hpn, walk_single hq hqn]
    · by_cases htv : t v ≤ t u
      · exact A u v p q hlen hp hpn hq hqn huv htv
      · have := A v u p.reverse q.reverse (by rw [List.length_reverse]; exact hlen)
          (isWalk_reverse hsym hp) (List.nodup_reverse.mpr hpn)
          (isWalk_reverse hsym hq) (List.nodup_reverse.mpr hqn)
          (fun h => huv h.symm) (by omega)
        exact List.reverse_injective this

theorem fuel_bound {width height : Int} (hw : 1 ≤ width) (hh : 1 ≤ height) {fuel : Nat}
    (hf : 2 * width * height ≤ (fuel : Int)) :
    2 * (width.toNat * height.toNat) ≤ fuel ∧ 1 ≤ width.toNat * height.toNat := by
  have h1 : ((width.toNat * height.toNat : Nat) : Int) = width * height := by
    push_cast
    rw [Int.toNat_of_nonneg (by omega), Int.toNat_of_nonneg (by omega)]
  have h2 : 1 ≤ width * height := by nlinarith
  have h3 : 2 * width * height = 2 * (width * height) := by ring
  constructor <;> omega

theorem generate_spec {width height : Int} (hw : 1 ≤ width) (hh : 1 ≤ height)
    (shuffle : Nat → List Int) (hsh : ∀ i, List.Perm (shuffle i) allDirs) (fuel : Nat)
    (hf : 2 * width * height ≤ (fuel : Int)) :
    ∃ s, Maze.generate fuel shuffle width height = .ok s ∧ GenInv width height s ∧
      s.stack = [] := by
  obtain ⟨g, hg⟩ := initGrid_ok width height (by omega) (by omega)
  obtain ⟨v0, hv0⟩ := newVec2_ok height width false (by omega) (by omega)
  have h00 : inGrid width height (0, 0) := ⟨le_refl _, by omega, le_refl _, by omega⟩
  have hv00 : vget v0 0 0 = .ok false := by
    rw [vget_newVec2 height width false v0 hv0, if_pos h00]
  obtain ⟨v, hv⟩ := vset_of_vget v0 0 0 true false hv00
  have hI := genInv_init hw hh hg hv0 hv
  obtain ⟨hfu, hpos⟩ := fuel_bound hw hh hf
  have hcard : (visitedSet v width height).card = 1 := (solveInv_init hw hh g hv0
    (newVec2_ok height width ((-1 : Int), (-1 : Int)) (by omega) (by omega)).choose_spec hv).2
  obtain ⟨s1, h1, h2, h3⟩ := genLoop_terminates width height shuffle hsh fuel 0 _ hI
    (by
      show 2 * (width.toNat * height.toNat) + 1 ≤ fuel + 2 * (visitedSet v width height).card
      rw [hcard]
      omega)
  refine ⟨s1, ?_, h2, h3⟩
  unfold Maze.generate Maze.GenerateMaze
  rw [hg]
  simp only
  rw [hv0]
  simp only
  rw [hv]
  exact h1

theorem solve_spec {width height : Int} (hw : 1 ≤ width) (hh : 1 ≤ height)
    {grid : List (List Cell)} (hG : WalledGrid width height grid)
    (ds : List Int) (hds : List.Perm ds allDirs) (fuel : Nat)
    (hf : 2 * width * height ≤ (fuel : Int)) :
    ∃ path, Maze.FindSolutionWith ds fuel width height grid = .ok path ∧
      ((path = [] ∧
          ¬ Relation.ReflTransGen (FStep grid) (0, 0) (fexit width height)) ∨
       (IsWalk (Step grid) (0, 0) (fexit width height) path ∧ path.Nodup ∧
          Relation.ReflTransGen (FStep grid) (0, 0) (fexit width height) ∧
          ∀ x ∈ path, inGrid width height x ∧ x.1 ≤ 2 ^ 24 ∧ x.2 ≤ 2 ^ 24)) := by
  obtain ⟨v0, hv0⟩ := newVec2_ok height width false (by omega) (by omega)
  obtain ⟨par, hpar⟩ := newVec2_ok height width ((-1 : Int), (-1 : Int)) (by omega) (by omega)
  have h00 : inGrid width height (0, 0) := ⟨le_refl _, by omega, le_refl _, by omega⟩
  have hv00 : vget v0 0 0 = .ok false := by
    rw [vget_newVec2 height width false v0 hv0, if_pos h00]
  obtain ⟨v, hv⟩ := vset_of_vget v0 0 0 true false hv00
  obtain ⟨hI, hcard⟩ := solveInv_init hw hh grid hv0 hpar hv
  obtain ⟨hfu, hpos⟩ := fuel_bound hw hh hf
  obtain ⟨path, h1, h2⟩ := solveLoop_spec hG ds hds fuel (by omega) fuel _ hI
    (by
      show 2 * (width.toNat * height.toNat) + 1 ≤ fuel + 2 * (visitedSet v width height).card
      rw [hcard]
      omega)
  refine ⟨path, ?_, h2⟩
  unfold Maze.FindSolutionWith
  rw [hv0]
  simp only
  rw [hpar]
  simp only
  rw [hv]
  exact h1

theorem passage_symm (grid : List (List Cell)) (a b : Int × Int) (h : Passage grid a b) :
    Passage grid b a := by
  obtain ⟨d, hd, hb, h1, h2⟩ := h
  refine ⟨opp d, opp_mem_allDirs d hd, ?_, h2, ?_⟩
  · rw [hb, nbr_opp a d hd]
  · rw [opp_opp d hd]
    exact h1

theorem genInv_walled {width height : Int} {s : GenState} (hI : GenInv width height s) :
    WalledGrid width height s.grid :=
  ⟨hI.gridDom, hI.outer⟩

theorem genInv_step_iff {width height : Int} {s : GenState} (hI : GenInv width height s)
    (a b : Int × Int) : Step s.grid a b ↔ Passage s.grid a b := by
  constructor
  · rintro ⟨d, hd, hm, hb⟩
    have hbin : inGrid width height (nbr a d) := walled_step_inGrid (genInv_walled hI) hm
    have hain : inGrid width height a := (hI.gridDom a.1 a.2).mpr (canMove_ok hm).1
    refine ⟨d, hd, hb, hm, ?_⟩
    rw [hb, ← hI.symm a d hain hd hbin]
    exact hm
  · rintro ⟨d, hd, hb, hm, _⟩
    exact ⟨d, hd, hm, hb⟩

theorem genInv_allVisited {width height : Int} {s : GenState} (hI : GenInv width height s)
    (hs : s.stack = []) (p : Int × Int) (hp : inGrid width height p) :
    vget s.visited p.1 p.2 = .ok true := by
  have hcl : ∀ (q : Int × Int) (d : Int), vget s.visited q.1 q.2 = .ok true → d ∈ allDirs →
      inGrid width height (nbr q d) → vget s.visited (nbr q d).1 (nbr q d).2 = .ok true := by
    intro q d hq hd hin
    exact hI.closed q hq (by rw [hs]; exact List.not_mem_nil _) d hd hin
  have hx1 : ∀ q : Int × Int, nbr q 1 = (q.1 + 1, q.2) := by
    intro q; simp [nbr, offX, offY]
  have hy1 : ∀ q : Int × Int, nbr q 2 = (q.1, q.2 + 1) := by
    intro q; simp [nbr, offX, offY]
  have hrow : ∀ n : Nat, (n : Int) < width → vget s.visited (n : Int) 0 = .ok true := by
    intro n
    induction n with
    | zero => intro _; exact hI.entry
    | succ n ih =>
      intro hn
      push_cast at hn
      have hprev := ih (by omega)
      have hin : inGrid width height ((n : Int) + 1, 0) :=
        ⟨by omega, hn, le_refl _, by have := hp.2.2; omega⟩
      have := hcl ((n : Int), 0) 1 hprev (by decide) (by rw [hx1]; exact hin)
      rw [hx1] at this
      push_cast
      exact this
  have hcol : ∀ n : Nat, (n : Int) < height → vget s.visited p.1 (n : Int) = .ok true := by
    intro n
    induction n with
    | zero =>
      intro _
      have := hrow p.1.toNat (by rw [Int.toNat_of_nonneg hp.1]; exact hp.2.1)
      rw [Int.toNat_of_nonneg hp.1] at this
      exact this
    | succ n ih =>
      intro hn
      push_cast at hn
      have hprev := ih (by omega)
      have hin : inGrid width height (p.1, (n : Int) + 1) :=
        ⟨hp.1, hp.2.1, by omega, hn⟩
      have := hcl (p.1, (n : Int)) 2 hprev (by decide) (by rw [hy1]; exact hin)
      rw [hy1] at this
      push_cast
      exact this
  have := hcol p.2.toNat (by rw [Int.toNat_of_nonneg hp.2.2.1]; exact hp.2.2.2)
  rw [Int.toNat_of_nonneg hp.2.2.1] at this
  exact this

theorem genInv_card {width height : Int} {s : GenState} (hI : GenInv width height s)
    (hs : s.stack = []) :
    (visitedSet s.visited width height).card = width.toNat * height.toNat := by
  have : visitedSet s.visited width height = Finset.Ico 0 width ×ˢ Finset.Ico 0 height := by
    unfold visitedSet
    apply Finset.filter_true_of_mem
    intro p hp
    rw [Finset.mem_product, Finset.mem_Ico, Finset.mem_Ico] at hp
    exact genInv_allVisited hI hs p ⟨hp.1.1, hp.1.2, hp.2.1, hp.2.2⟩
  rw [this, Finset.card_product, Int.card_Ico, Int.card_Ico]
  simp

theorem count_one_of_nodup {α : Type} [BEq α] [LawfulBEq α] (l : List α) (a : α)
    (hn : l.Nodup) (ha : a ∈ l) : l.count a = 1 := by
  induction l with
  | nil => cases ha
  | cons b l ih =>
    rw [List.count_cons]
    obtain ⟨hb, hl⟩ := List.nodup_cons.mp hn
    rcases List.mem_cons.mp ha with rfl | h
    · have : List.count a l = 0 := List.count_eq_zero.mpr hb
      simp [this]
    · have hne : ¬ (b == a) = true := by
        intro h1
        have := eq_of_beq h1
        subst this
        exact hb h
      rw [ih hl h, if_neg hne]

/-! ## Properties of the generator -/

/-- C1. For all `width, height ≥ 1` and every sequence of shuffled direction
orderings, `GenerateMaze` run on the all-walls grid of the constructor ends
(any budget of at least `2·width·height` iterations is enough) with a grid that
has exactly `width·height − 1` passages and in which every cell of the grid is
reachable from `(0, 0)` through passages. -/
theorem generateMaze_spanning_tree (width height : Int) (hw : 1 ≤ width) (hh : 1 ≤ height)
    (shuffle : Nat → List Int) (hsh : ∀ i, List.Perm (shuffle i) allDirs) (fuel : Nat)
    (hf : 2 * width * height ≤ (fuel : Int)) :
    ∃ s, Maze.generate fuel shuffle width height = .ok s ∧
      (passageCount s.grid width height : Int) = width * height - 1 ∧
      ∀ p, inGrid width height p → Reachable s.grid p := by
  obtain ⟨s, h1, hI, hs⟩ := generate_spec hw hh shuffle hsh fuel hf
  refine ⟨s, h1, ?_, ?_⟩
  · have hc := hI.count
    rw [genInv_card hI hs] at hc
    have h2 : ((width.toNat * height.toNat : Nat) : Int) = width * height := by
      push_cast
      rw [Int.toNat_of_nonneg (by omega), Int.toNat_of_nonneg (by omega)]
    omega
  · intro p hp
    exact hI.conn p (genInv_allVisited hI hs p hp)

/-- C1 at a concrete input: a 2 × 3 maze carved with the ordering `0,1,2,3` at every step. -/
theorem generateMaze_spanning_tree_witness :
    ∃ s, Maze.generate 12 (fun _ => allDirs) 2 3 = .ok s ∧
      (passageCount s.grid 2 3 : Int) = 2 * 3 - 1 ∧
      ∀ p, inGrid 2 3 p → Reachable s.grid p :=
  generateMaze_spanning_tree 2 3 (by decide) (by decide) (fun _ => allDirs)
    (fun _ => List.Perm.refl _) 12 (by decide)

/-- C4. In every generated grid passages are symmetric: for a cell `p` and a
direction `d` whose neighbour lies inside the grid, `p` has no wall in direction
`d` exactly when the neighbour has no wall in direction `(d + 2) % 4`. -/
theorem generateMaze_symmetric (width height : Int) (hw : 1 ≤ width) (hh : 1 ≤ height)
    (shuffle : Nat → List Int) (hsh : ∀ i, List.Perm (shuffle i) allDirs) (fuel : Nat)
    (hf : 2 * width * height ≤ (fuel : Int)) :
    ∃ s, Maze.generate fuel shuffle width height = .ok s ∧
      ∀ (p : Int × Int) (d : Int), inGrid width height p → d ∈ allDirs →
        inGrid width height (nbr p d) →
        (CanMove s.grid p.1 p.2 d = .ok true ↔
          CanMove s.grid (nbr p d).1 (nbr p d).2 (Int.tmod (d + 2) 4) = .ok true) := by
  obtain ⟨s, h1, hI, _⟩ := generate_spec hw hh shuffle hsh fuel hf
  refine ⟨s, h1, ?_⟩
  intro p d hp hd hq
  have := hI.symm p d hp hd hq
  unfold opp at this
  rw [this]

/-- C4 at a concrete input: a 3 × 2 maze carved with the ordering `0,1,2,3` at every step. -/
theorem generateMaze_symmetric_witness :
    ∃ s, Maze.generate 12 (fun _ => allDirs) 3 2 = .ok s ∧
      ∀ (p : Int × Int) (d : Int), inGrid 3 2 p → d ∈ allDirs →
        inGrid 3 2 (nbr p d) →
        (CanMove s.grid p.1 p.2 d = .ok true ↔
          CanMove s.grid (nbr p d).1 (nbr p d).2 (Int.tmod (d + 2) 4) = .ok true) :=
  generateMaze_symmetric 3 2 (by decide) (by decide) (fun _ => allDirs)
    (fun _ => List.Perm.refl _) 12 (by decide)

/-- C10. For all `width, height ≥ 1` and every sequence of direction orderings
the carving loop of `GenerateMaze` terminates (within `2·width·height`
iterations) with an empty stack; at that point every cell of the grid is marked
visited, every cell has been pushed exactly once and nothing else was pushed. -/
theorem generateMaze_terminates (width height : Int) (hw : 1 ≤ width) (hh : 1 ≤ height)
    (shuffle : Nat → List Int) (hsh : ∀ i, List.Perm (shuffle i) allDirs) (fuel : Nat)
    (hf : 2 * width * height ≤ (fuel : Int)) :
    ∃ s, Maze.generate fuel shuffle width height = .ok s ∧ s.stack = [] ∧
      (∀ p, inGrid width height p → vget s.visited p.1 p.2 = .ok true) ∧
      (∀ p, inGrid width height p → s.pushed.count p = 1) ∧
      (∀ p ∈ s.pushed, inGrid width height p) := by
  obtain ⟨s, h1, hI, hs⟩ := generate_spec hw hh shuffle hsh fuel hf
  refine ⟨s, h1, hs, genInv_allVisited hI hs, ?_, ?_⟩
  · intro p hp
    exact count_one_of_nodup s.pushed p hI.logNodup
      ((hI.logMem p).mpr (genInv_allVisited hI hs p hp))
  · intro p hp
    exact inGrid_of_vget hI.visDom ((hI.logMem p).mp hp)

/-- C10 at a concrete input: a 2 × 2 maze carved with the ordering `3,2,1,0` at every step. -/
theorem generateMaze_terminates_witness :
    ∃ s, Maze.generate 8 (fun _ => [3, 2, 1, 0]) 2 2 = .ok s ∧ s.stack = [] ∧
      (∀ p, inGrid 2 2 p → vget s.visited p.1 p.2 = .ok true) ∧
      (∀ p, inGrid 2 2 p → s.pushed.count p = 1) ∧
      (∀ p ∈ s.pushed, inGrid 2 2 p) :=
  generateMaze_terminates 2 2 (by decide) (by decide) (fun _ => [3, 2, 1, 0])
    (fun _ => (by decide : List.Perm [3, 2, 1, 0] allDirs)) 8 (by decide)

/-! ## Properties of the solver on a generated maze -/

/-- On a finished maze of any size the search, whatever the order of its
direction loop, returns normally: either with an empty solution, when it cannot
reach the cell of its exit test, or with a walk without repetition from the
entry to that cell. -/
theorem solution_spec_gen {width height : Int} (hw : 1 ≤ width) (hh : 1 ≤ height)
    {s : GenState} (hI : GenInv width height s)
    (ds : List Int) (hds : List.Perm ds allDirs) (fuel : Nat)
    (hf : 2 * width * height ≤ (fuel : Int)) :
    ∃ path, Maze.FindSolutionWith ds fuel width height s.grid = .ok path ∧
      ((path = [] ∧
          ¬ Relation.ReflTransGen (FStep s.grid) (0, 0) (fexit width height)) ∨
       (IsWalk (Passage s.grid) (0, 0) (fexit width height) path ∧ path.Nodup ∧
          Relation.ReflTransGen (FStep s.grid) (0, 0) (fexit width height) ∧
          ∀ x ∈ path, inGrid width height x ∧ x.1 ≤ 2 ^ 24 ∧ x.2 ≤ 2 ^ 24)) := by
  obtain ⟨path, h1, h2⟩ := solve_spec hw hh (genInv_walled hI) ds hds fuel hf
  refine ⟨path, h1, ?_⟩
  rcases h2 with h3 | ⟨h3, h4, h5, h6⟩
  · exact Or.inl h3
  · exact Or.inr ⟨isWalk_mono (fun a b h => (genInv_step_iff hI a b).mp h) h3, h4, h5, h6⟩

/-- Two walks without repetition between the same cells of a finished maze are equal. -/
theorem genInv_walk_unique {width height : Int} {s : GenState} (hI : GenInv width height s)
    {u v : Int × Int} {p q : List (Int × Int)}
    (hp : IsWalk (Passage s.grid) u v p) (hpn : p.Nodup)
    (hq : IsWalk (Passage s.grid) u v q) (hqn : q.Nodup) : p = q := by
  obtain ⟨t, _, _, h1, h2⟩ := hI.rank
  exact walk_unique t (passage_symm s.grid) h1 h2 p.length u v p q rfl hp hpn hq hqn

/-- C5. On every generated maze the path returned by the solver does not depend
on the order in which its loop scans the four directions: every permutation of
`0,1,2,3` used as scan order yields the path that the source order yields. -/
theorem findSolution_order_independent (width height : Int) (hw : 1 ≤ width)
    (hh : 1 ≤ height) (shuffle : Nat → List Int) (hsh : ∀ i, List.Perm (shuffle i) allDirs)
    (fuel : Nat) (hf : 2 * width * height ≤ (fuel : Int)) :
    ∃ s path, Maze.generate fuel shuffle width height = .ok s ∧
      Maze.FindSolution fuel width height s.grid = .ok path ∧
      ∀ ds : List Int, List.Perm ds [0, 1, 2, 3] →
        Maze.FindSolutionWith ds fuel width height s.grid = .ok path := by
  obtain ⟨s, h1, hI, _⟩ := generate_spec hw hh shuffle hsh fuel hf
  obtain ⟨path, h2, h3⟩ := solution_spec_gen hw hh hI allDirs (List.Perm.refl _) fuel hf
  refine ⟨s, path, h1, h2, ?_⟩
  intro ds hds
  obtain ⟨q, hq1, hq2⟩ := solution_spec_gen hw hh hI ds hds fuel hf
  rw [hq1]
  rcases h3 with ⟨h4, h5⟩ | ⟨h4, h5, h6, _⟩
  · rcases hq2 with ⟨h7, _⟩ | ⟨_, _, h9, _⟩
    · rw [h4, h7]
    · exact absurd h9 h5
  · rcases hq2 with ⟨_, h8⟩ | ⟨h7, h8, _, _⟩
    · exact absurd h6 h8
    · rw [genInv_walk_unique hI h4 h5 h7 h8]

/-- C5 at a concrete input: a 3 × 3 maze carved with the ordering `1,2,3,0` at every step. -/
theorem findSolution_order_independent_witness :
    ∃ s path, Maze.generate 18 (fun _ => [1, 2, 3, 0]) 3 3 = .ok s ∧
      Maze.FindSolution 18 3 3 s.grid = .ok path ∧
      ∀ ds : List Int, List.Perm ds [0, 1, 2, 3] →
        Maze.FindSolutionWith ds 18 3 3 s.grid = .ok path :=
  findSolution_order_independent 3 3 (by decide) (by decide) (fun _ => [1, 2, 3, 0])
    (fun _ => (by decide : List.Perm [1, 2, 3, 0] allDirs)) 18 (by decide)

/-! ## Corridors -/

theorem vset_of_vget_error {α : Type} (v : List (List α)) (x y : Int) (a : α) (e : Fault)
    (h : vget v x y = .error e) : vset v x y a = .error .outOfBounds := by
  cases hs : vset v x y a with
  | ok v1 =>
    obtain ⟨a0, ha0⟩ := vget_of_vset v v1 x y a hs
    rw [ha0] at h
    cases h
  | error e1 =>
    unfold vset at hs
    split_ifs at hs with h1
    · split at hs
      · cases hs; rfl
      · split_ifs at hs
        cases hs; rfl
    · cases hs; rfl

/-- C7, as stated, fails at width 0 and height 1: the constructor reports no
error there. It builds a grid of one row without cells and calls `GenerateMaze`,
whose first write `visited[0][0] = true` lies outside the vector. -/
theorem maze_new_zero_width :
    Maze.initGrid 0 1 = .ok [[]] ∧
      Maze.new 8 (fun _ => allDirs) 0 1 40 = .error Fault.outOfBounds :=
  ⟨rfl, rfl⟩

/-- C7, amended. The constructor checks no dimension. With a negative width or
height the allocation of the vectors throws `std::length_error` and no maze is
built; with a width or height of 0 (none negative) nothing is thrown and
`GenerateMaze` indexes `visited[0][0]` outside the vector. -/
theorem maze_new_bad_dimensions (width height : Int) (h : width ≤ 0 ∨ height ≤ 0)
    (fuel : Nat) (shuffle : Nat → List Int) (cellSize : Int) :
    Maze.new fuel shuffle width height cellSize =
      .error (if width < 0 ∨ height < 0 then Fault.lengthError else Fault.outOfBounds) := by
  by_cases hw : width < 0
  · rw [if_pos (Or.inl hw)]
    unfold Maze.new Maze.generate Maze.initGrid newVec2
    rw [if_pos hw]
  · by_cases hh : height < 0
    · rw [if_pos (Or.inr hh)]
      unfold Maze.new Maze.generate Maze.initGrid newVec2
      rw [if_neg hw, if_pos hh]
    · rw [if_neg (by rintro (h1 | h1) <;> omega)]
      obtain ⟨g, hg⟩ := initGrid_ok width height (by omega) (by omega)
      obtain ⟨v0, hv0⟩ := newVec2_ok height width false (by omega) (by omega)
      have hout : ¬ inGrid width height (0, 0) := by
        intro hin
        have := hin.2.1
        have := hin.2.2.2
        simp only at *
        omega
      have hv00 : vget v0 0 0 = .error .outOfBounds := by
        rw [vget_newVec2 height width false v0 hv0, if_neg hout]
      have hset := vset_of_vget_error v0 0 0 true _ hv00
      unfold Maze.new Maze.generate Maze.GenerateMaze
      rw [hg]
      simp only
      rw [hv0]
      simp only
      rw [hset]

/-- C7, amended, at concrete inputs: a negative height and a zero height. -/
theorem maze_new_bad_dimensions_witness :
    Maze.new 8 (fun _ => allDirs) 3 (-2) 40 = .error Fault.lengthError ∧
      Maze.new 8 (fun _ => allDirs) 3 0 40 = .error Fault.outOfBounds :=
  ⟨maze_new_bad_dimensions 3 (-2) (Or.inr (by decide)) 8 (fun _ => allDirs) 40,
    maze_new_bad_dimensions 3 0 (Or.inr (by decide)) 8 (fun _ => allDirs) 40⟩

/-- C9, as stated, fails on the 1 × 1 all-walls grid at `x = 1`: `CanMove`
neither reports a failure nor returns false there, it reads `grid[0][1]` outside
the row (undefined behaviour in the source); likewise for direction 4. -/
theorem canMove_out_of_range :
    CanMove [[Cell.new 0 0]] 1 0 0 = .error Fault.outOfBounds ∧
      CanMove [[Cell.new 0 0]] 0 0 4 = .error Fault.outOfBounds :=
  ⟨rfl, rfl⟩

/-- C9, amended. `CanMove` checks nothing: for a cell inside the grid and a
direction in `0..3` it returns the negation of the wall flag, and for every
other argument its index lies outside the grid or the wall array. -/
theorem canMove_unchecked (width height : Int) (grid : List (List Cell))
    (hg : HasDom width height grid) (x y d : Int) :
    (inGrid width height (x, y) ∧ d ∈ allDirs →
      ∃ c w, vget grid x y = .ok c ∧ c.HasWall d = .ok w ∧ CanMove grid x y d = .ok (!w)) ∧
    (¬ (inGrid width height (x, y) ∧ d ∈ allDirs) →
      CanMove grid x y d = .error Fault.outOfBounds) := by
  constructor
  · rintro ⟨hin, hd⟩
    obtain ⟨c, hc⟩ := (hg x y).mp hin
    obtain ⟨w, hw⟩ := hasWall_total c hd
    exact ⟨c, w, hc, hw, canMove_of_hasWall hc hw⟩
  · intro hn
    cases hc : vget grid x y with
    | error e =>
      have := vget_error_eq grid x y e hc
      subst this
      unfold CanMove
      rw [hc]
    | ok c =>
      have hin : inGrid width height (x, y) := (hg x y).mpr ⟨c, hc⟩
      have hd : d ∉ allDirs := fun h => hn ⟨hin, h⟩
      rw [mem_allDirs] at hd
      push_neg at hd
      unfold CanMove
      rw [hc]
      simp [Cell.HasWall, hd.1, hd.2.1, hd.2.2.1, hd.2.2.2]

/-- C9, amended, at a concrete input: the 1 × 1 all-walls grid queried at `x = 1`. -/
theorem canMove_unchecked_witness :
    (inGrid 1 1 (1, 0) ∧ (0 : Int) ∈ allDirs →
      ∃ c w, vget [[Cell.new 0 0]] 1 0 = .ok c ∧ c.HasWall 0 = .ok w ∧
        CanMove [[Cell.new 0 0]] 1 0 0 = .ok (!w)) ∧
    (¬ (inGrid 1 1 (1, 0) ∧ (0 : Int) ∈ allDirs) →
      CanMove [[Cell.new 0 0]] 1 0 0 = .error Fault.outOfBounds) :=
  canMove_unchecked 1 1 [[Cell.new 0 0]]
    (hasDom_initGrid (rfl : Maze.initGrid 1 1 = .ok [[Cell.new 0 0]])) 1 0 0

/-! ## Outer walls and the unchecked indices of `FindSolution` -/

/-- C11. `GenerateMaze` never removes an outer wall: in every generated grid a
cell keeps its wall in each direction whose neighbour lies outside the grid.
Hence wherever `HasWall` answers false at a cell of the grid, the neighbour
lies inside the grid, and so does the neighbour that `FindSolution` computes
through `float` from a cell with coordinates up to 2^24; the run of
`FindSolution` on the generated grid completes without any index of `visited`
or `parent` (or of the grid) falling out of range, and every cell of the
solution lies inside the grid. -/
theorem generateMaze_keeps_outer_walls (width height : Int) (hw : 1 ≤ width)
    (hh : 1 ≤ height) (shuffle : Nat → List Int) (hsh : ∀ i, List.Perm (shuffle i) allDirs)
    (fuel : Nat) (hf : 2 * width * height ≤ (fuel : Int)) :
    ∃ s path, Maze.generate fuel shuffle width height = .ok s ∧
      (∀ (p : Int × Int) (d : Int), inGrid width height p → d ∈ allDirs →
        ¬ inGrid width height (nbr p d) →
        ∃ c, vget s.grid p.1 p.2 = .ok c ∧ c.HasWall d = .ok true) ∧
      (∀ (p : Int × Int) (d : Int) (c : Cell), vget s.grid p.1 p.2 = .ok c →
        c.HasWall d = .ok false → inGrid width height (nbr p d)) ∧
      (∀ (p : Int × Int) (d : Int) (c : Cell), vget s.grid p.1 p.2 = .ok c →
        p.1 ≤ 2 ^ 24 → p.2 ≤ 2 ^ 24 → c.HasWall d = .ok false →
        inGrid width height (fnbr p d)) ∧
      Maze.FindSolution fuel width height s.grid = .ok path ∧
      (∀ x ∈ path, inGrid width height x) := by
  obtain ⟨s, h1, hI, hs⟩ := generate_spec hw hh shuffle hsh fuel hf
  obtain ⟨path, h2, h3⟩ := solution_spec_gen hw hh hI allDirs (List.Perm.refl _) fuel hf
  refine ⟨s, path, h1, ?_, ?_, ?_, h2, ?_⟩
  · intro p d hp hd hout
    obtain ⟨c, hc⟩ := (hI.gridDom p.1 p.2).mp hp
    obtain ⟨w, hwl⟩ := hasWall_total c hd
    have hm := canMove_of_hasWall hc hwl
    rw [hI.outer p d hp hd hout] at hm
    refine ⟨c, hc, ?_⟩
    cases w with
    | true => exact hwl
    | false => cases hm
  · intro p d c hc hwl
    exact walled_step_inGrid (genInv_walled hI) (canMove_of_hasWall hc hwl)
  · intro p d c hc hp1 hp2 hwl
    have hm := canMove_of_hasWall hc hwl
    have hpin : inGrid width height p := (hI.gridDom p.1 p.2).mpr ⟨c, hc⟩
    rcases fnbr_cases p d (canMove_ok hm).2 hpin.1 hp1 hpin.2.2.1 hp2 with h | h
    · rw [h.1]
      exact walled_step_inGrid (genInv_walled hI) hm
    · rw [h]
      exact hpin
  · intro x hx
    rcases h3 with ⟨h4, _⟩ | ⟨_, _, _, h4⟩
    · rw [h4] at hx
      cases hx
    · exact (h4 x hx).1

/-- C11 at a concrete input: a 2 × 2 maze carved with the ordering `0,3,2,1` at every step. -/
theorem generateMaze_keeps_outer_walls_witness :
    ∃ s path, Maze.generate 8 (fun _ => [0, 3, 2, 1]) 2 2 = .ok s ∧
      (∀ (p : Int × Int) (d : Int), inGrid 2 2 p → d ∈ allDirs →
        ¬ inGrid 2 2 (nbr p d) →
        ∃ c, vget s.grid p.1 p.2 = .ok c ∧ c.HasWall d = .ok true) ∧
      (∀ (p : Int × Int) (d : Int) (c : Cell), vget s.grid p.1 p.2 = .ok c →
        c.HasWall d = .ok false → inGrid 2 2 (nbr p d)) ∧
      (∀ (p : Int × Int) (d : Int) (c : Cell), vget s.grid p.1 p.2 = .ok c →
        p.1 ≤ 2 ^ 24 → p.2 ≤ 2 ^ 24 → c.HasWall d = .ok false →
        inGrid 2 2 (fnbr p d)) ∧
      Maze.FindSolution 8 2 2 s.grid = .ok path ∧
      (∀ x ∈ path, inGrid 2 2 x) :=
  generateMaze_keeps_outer_walls 2 2 (by decide) (by decide) (fun _ => [0, 3, 2, 1])
    (fun _ => (by decide : List.Perm [0, 3, 2, 1] allDirs)) 8 (by decide)

/-! ## Mazes of more than 2^24 + 1 cells a side -/

end StarWars
